import Mathlib

/-!
Verification of the register-saturation scheduling preparation pass
(`beschedrss.c`).  IR nodes are identified by their integer index
(`get_irn_idx`), so a node is modelled as a natural number.  The synthetic
Sink node is a distinguished `Node` passed around explicitly (the C code
keeps it in the global `_sink`).  The per-block `plist` lists are modelled
as Lean lists; `plist_insert_back` guarded by `plist_has_value` becomes
`addUnique`.  The sorted membership arrays built by
`build_sorted_array_from_list` (and searched with `bsearch` over the node
index) become `sortedArray` plus list membership.
-/

namespace Rss

abbrev Node := Nat

/-- Models `plist_has_value` followed by `plist_insert_back` (and likewise a
`pset_insert` keyed on the value): append a value to the back of the list
unless it is already present. -/
def addUnique {α : Type} [DecidableEq α] (l : List α) (x : α) : List α :=
  if x ∈ l then l else l ++ [x]

theorem mem_addUnique {α : Type} [DecidableEq α] {l : List α} {x y : α} :
    y ∈ addUnique l x ↔ y ∈ l ∨ y = x := by
  unfold addUnique
  by_cases h : x ∈ l
  · simp only [h, if_pos]
    constructor
    · exact Or.inl
    · rintro (hy | rfl) <;> assumption
  · simp [h]

theorem addUnique_nodup {α : Type} [DecidableEq α] {l : List α} {x : α} (h : l.Nodup) :
    (addUnique l x).Nodup := by
  unfold addUnique
  by_cases hx : x ∈ l <;> simp [hx, List.nodup_append, h]

/-- Models `build_sorted_array_from_list`: copy the list into an array and
sort it by node index (the node is its index in this model). -/
def sortedArray (l : List Node) : List Node :=
  l.insertionSort (· ≤ ·)

theorem mem_sortedArray {l : List Node} {x : Node} :
    x ∈ sortedArray l ↔ x ∈ l :=
  List.mem_insertionSort _

/-- Consumer and descendant data collected for one candidate node by
`collect_node_info` (sections collect_consumer / collect_descendants).
The traversal itself walks the block graph through the external edge
iterator; its results are the two lists recorded here. -/
structure NodeInfo where
  consumerList : List Node
  descendantList : List Node

/-- Embeds `is_potential_killer`.  The C code iterates the shorter of
descendants(v) and consumers(u) and searches each element in the sorted
array of the other side with `BSEARCH_IRN_ARR`.  The returned `match` is
the address of the array slot holding the equal-index element, which is
never pointer-equal to the node `irn` itself, so the test
`match && match != irn` fires exactly when the element is present in the
array: the function returns 1 iff descendants(v) and consumers(u) are
disjoint. -/
def is_potential_killer (v u : NodeInfo) : Bool :=
  if v.descendantList.length > u.consumerList.length then
    u.consumerList.all (fun irn => !((sortedArray v.descendantList).contains irn))
  else
    v.descendantList.all (fun irn => !((sortedArray u.consumerList).contains irn))

theorem is_potential_killer_iff (v u : NodeInfo) :
    is_potential_killer v u = true ↔
      ∀ x, x ∈ v.descendantList → x ∈ u.consumerList → False := by
  unfold is_potential_killer
  by_cases h : v.descendantList.length > u.consumerList.length
  · simp [h, List.all_eq_true, mem_sortedArray]
    exact ⟨fun hall x hxd hxc => hall x hxc hxd, fun hall x hxc hxd => hall x hxd hxc⟩
  · simp [h, List.all_eq_true, mem_sortedArray]

/-- State mutated by `compute_pkill_set`: per-node pkiller list, the inverse
kill-value list, and the selected killer (NULL before initialization). -/
structure PkState where
  pkiller : Node → List Node
  killValue : Node → List Node
  killer : Node → Option Node

def PkState.initial : PkState :=
  { pkiller := fun _ => [], killValue := fun _ => [], killer := fun _ => none }

/-- Embeds the body of the consumer loop of `compute_pkill_set`: if v is a
potential killer of u, record v in pkillers(u) and u in kill_values(v). -/
def processConsumer (info : Node → NodeInfo) (u : Node) (st : PkState) (v : Node) :
    PkState :=
  if is_potential_killer (info v) (info u) then
    { st with
      pkiller := fun n => if n = u then addUnique (st.pkiller u) v else st.pkiller n
      killValue := fun n => if n = v then addUnique (st.killValue v) u else st.killValue n }
  else st

/-- Embeds one iteration of the node loop of `compute_pkill_set`: check every
consumer of u, then initialize killer(u) to Sink. -/
def processPkNode (info : Node → NodeInfo) (sink : Node) (st : PkState) (u : Node) :
    PkState :=
  let st1 := (info u).consumerList.foldl (processConsumer info u) st
  { st1 with killer := fun n => if n = u then some sink else st1.killer n }

/-- Embeds `compute_pkill_set` over the interesting-node list `rss->nodes`. -/
def compute_pkill_set (info : Node → NodeInfo) (sink : Node) (nodes : List Node) :
    PkState :=
  nodes.foldl (processPkNode info sink) PkState.initial

theorem processConsumer_pkiller_mem (info : Node → NodeInfo) (u : Node)
    (st : PkState) (v w x : Node) :
    x ∈ (processConsumer info u st v).pkiller w ↔
      x ∈ st.pkiller w ∨
        (w = u ∧ x = v ∧ is_potential_killer (info v) (info u) = true) := by
  unfold processConsumer
  by_cases hk : is_potential_killer (info v) (info u) = true
  · simp only [hk, if_pos]
    by_cases hw : w = u
    · subst hw
      simp [mem_addUnique, hk]
    · simp [hw]
  · simp [hk]

theorem processConsumer_killValue_mem (info : Node → NodeInfo) (u : Node)
    (st : PkState) (v w x : Node) :
    x ∈ (processConsumer info u st v).killValue w ↔
      x ∈ st.killValue w ∨
        (w = v ∧ x = u ∧ is_potential_killer (info v) (info u) = true) := by
  unfold processConsumer
  by_cases hk : is_potential_killer (info v) (info u) = true
  · simp only [hk, if_pos]
    by_cases hw : w = v
    · subst hw
      simp [mem_addUnique, hk]
    · simp [hw]
  · simp [hk]

theorem consumerFold_pkiller_mem (info : Node → NodeInfo) (u : Node) :
    ∀ (cl : List Node) (st : PkState) (w x : Node),
      x ∈ (cl.foldl (processConsumer info u) st).pkiller w ↔
        x ∈ st.pkiller w ∨
          (w = u ∧ x ∈ cl ∧ is_potential_killer (info x) (info u) = true)
  | [], st, w, x => by simp
  | v :: cl, st, w, x => by
    rw [List.foldl_cons, consumerFold_pkiller_mem info u cl]
    rw [processConsumer_pkiller_mem]
    constructor
    · rintro ((h | ⟨rfl, rfl, hk⟩) | ⟨rfl, hx, hk⟩)
      · exact Or.inl h
      · exact Or.inr ⟨rfl, List.mem_cons_self _ _, hk⟩
      · exact Or.inr ⟨rfl, List.mem_cons_of_mem _ hx, hk⟩
    · rintro (h | ⟨rfl, hx, hk⟩)
      · exact Or.inl (Or.inl h)
      · rcases List.mem_cons.1 hx with rfl | hx
        · exact Or.inl (Or.inr ⟨rfl, rfl, hk⟩)
        · exact Or.inr ⟨rfl, hx, hk⟩

theorem consumerFold_killValue_mem (info : Node → NodeInfo) (u : Node) :
    ∀ (cl : List Node) (st : PkState) (w x : Node),
      x ∈ (cl.foldl (processConsumer info u) st).killValue w ↔
        x ∈ st.killValue w ∨
          (x = u ∧ w ∈ cl ∧ is_potential_killer (info w) (info u) = true)
  | [], st, w, x => by simp
  | v :: cl, st, w, x => by
    rw [List.foldl_cons, consumerFold_killValue_mem info u cl]
    rw [processConsumer_killValue_mem]
    constructor
    · rintro ((h | ⟨rfl, rfl, hk⟩) | ⟨rfl, hw, hk⟩)
      · exact Or.inl h
      · exact Or.inr ⟨rfl, List.mem_cons_self _ _, hk⟩
      · exact Or.inr ⟨rfl, List.mem_cons_of_mem _ hw, hk⟩
    · rintro (h | ⟨rfl, hw, hk⟩)
      · exact Or.inl (Or.inl h)
      · rcases List.mem_cons.1 hw with rfl | hw
        · exact Or.inl (Or.inr ⟨rfl, rfl, hk⟩)
        · exact Or.inr ⟨rfl, hw, hk⟩

theorem processPkNode_pkiller_mem (info : Node → NodeInfo) (sink : Node)
    (st : PkState) (u w x : Node) :
    x ∈ (processPkNode info sink st u).pkiller w ↔
      x ∈ st.pkiller w ∨
        (w = u ∧ x ∈ (info u).consumerList ∧
          is_potential_killer (info x) (info u) = true) := by
  unfold processPkNode
  exact consumerFold_pkiller_mem info u _ st w x

theorem processPkNode_killValue_mem (info : Node → NodeInfo) (sink : Node)
    (st : PkState) (u w x : Node) :
    x ∈ (processPkNode info sink st u).killValue w ↔
      x ∈ st.killValue w ∨
        (x = u ∧ w ∈ (info u).consumerList ∧
          is_potential_killer (info w) (info u) = true) := by
  unfold processPkNode
  exact consumerFold_killValue_mem info u _ st w x

theorem pkillFold_pkiller_mem (info : Node → NodeInfo) (sink : Node) :
    ∀ (nodes : List Node) (st : PkState) (w x : Node),
      x ∈ (nodes.foldl (processPkNode info sink) st).pkiller w ↔
        x ∈ st.pkiller w ∨
          (w ∈ nodes ∧ x ∈ (info w).consumerList ∧
            is_potential_killer (info x) (info w) = true)
  | [], st, w, x => by simp
  | u :: nodes, st, w, x => by
    rw [List.foldl_cons, pkillFold_pkiller_mem info sink nodes]
    rw [processPkNode_pkiller_mem]
    constructor
    · rintro ((h | ⟨rfl, hx, hk⟩) | ⟨hw, hx, hk⟩)
      · exact Or.inl h
      · exact Or.inr ⟨List.mem_cons_self _ _, hx, hk⟩
      · exact Or.inr ⟨List.mem_cons_of_mem _ hw, hx, hk⟩
    · rintro (h | ⟨hw, hx, hk⟩)
      · exact Or.inl (Or.inl h)
      · rcases List.mem_cons.1 hw with rfl | hw
        · exact Or.inl (Or.inr ⟨rfl, hx, hk⟩)
        · exact Or.inr ⟨hw, hx, hk⟩

theorem pkillFold_killValue_mem (info : Node → NodeInfo) (sink : Node) :
    ∀ (nodes : List Node) (st : PkState) (w x : Node),
      x ∈ (nodes.foldl (processPkNode info sink) st).killValue w ↔
        x ∈ st.killValue w ∨
          (x ∈ nodes ∧ w ∈ (info x).consumerList ∧
            is_potential_killer (info w) (info x) = true)
  | [], st, w, x => by simp
  | u :: nodes, st, w, x => by
    rw [List.foldl_cons, pkillFold_killValue_mem info sink nodes]
    rw [processPkNode_killValue_mem]
    constructor
    · rintro ((h | ⟨rfl, hw, hk⟩) | ⟨hx, hw, hk⟩)
      · exact Or.inl h
      · exact Or.inr ⟨List.mem_cons_self _ _, hw, hk⟩
      · exact Or.inr ⟨List.mem_cons_of_mem _ hx, hw, hk⟩
    · rintro (h | ⟨hx, hw, hk⟩)
      · exact Or.inl (Or.inl h)
      · rcases List.mem_cons.1 hx with rfl | hx
        · exact Or.inl (Or.inr ⟨rfl, hw, hk⟩)
        · exact Or.inr ⟨hx, hw, hk⟩

theorem compute_pkill_set_pkiller_mem (info : Node → NodeInfo) (sink : Node)
    (nodes : List Node) (w x : Node) :
    x ∈ (compute_pkill_set info sink nodes).pkiller w ↔
      w ∈ nodes ∧ x ∈ (info w).consumerList ∧
        is_potential_killer (info x) (info w) = true := by
  unfold compute_pkill_set
  rw [pkillFold_pkiller_mem]
  simp [PkState.initial]

theorem compute_pkill_set_killValue_mem (info : Node → NodeInfo) (sink : Node)
    (nodes : List Node) (w x : Node) :
    x ∈ (compute_pkill_set info sink nodes).killValue w ↔
      x ∈ nodes ∧ w ∈ (info x).consumerList ∧
        is_potential_killer (info w) (info x) = true := by
  unfold compute_pkill_set
  rw [pkillFold_killValue_mem]
  simp [PkState.initial]


/-- Concrete node-info table used by witnesses: node 1 is consumed by node 2
and by the block-external world, node 2 consumes it and feeds only Sink
(node 0). -/
def infoW : Node → NodeInfo := fun n =>
  if n = 1 then { consumerList := [2], descendantList := [2, 0] }
  else if n = 2 then { consumerList := [0], descendantList := [0] }
  else { consumerList := [], descendantList := [] }

/-- C4: after `compute_pkill_set`, every v recorded in pkillers(u) satisfies
descendants(v) ∩ consumers(u) ⊆ \x7bv\x7d, and conversely every consumer v of u
satisfying that inclusion (for a node v that is not its own descendant, as
in any acyclic block) is recorded in pkillers(u), with u appended to
kill_values(v). -/
theorem pkill_set_spec (info : Node → NodeInfo) (sink : Node)
    (nodes : List Node) (u v : Node) (hu : u ∈ nodes)
    (hvd : v ∉ (info v).descendantList) :
    (v ∈ (compute_pkill_set info sink nodes).pkiller u →
       ∀ x, x ∈ (info v).descendantList → x ∈ (info u).consumerList → x = v)
    ∧ (v ∈ (info u).consumerList →
       (∀ x, x ∈ (info v).descendantList → x ∈ (info u).consumerList → x = v) →
       v ∈ (compute_pkill_set info sink nodes).pkiller u ∧
         u ∈ (compute_pkill_set info sink nodes).killValue v) := by
  constructor
  · intro hmem x hxd hxc
    rcases (compute_pkill_set_pkiller_mem info sink nodes u v).1 hmem with ⟨_, _, hk⟩
    exact (((is_potential_killer_iff (info v) (info u)).1 hk x hxd) hxc).elim
  · intro hcons hsub
    have hk : is_potential_killer (info v) (info u) = true := by
      rw [is_potential_killer_iff]
      intro x hxd hxc
      exact hvd ((hsub x hxd hxc) ▸ hxd)
    exact ⟨(compute_pkill_set_pkiller_mem info sink nodes u v).2 ⟨hu, hcons, hk⟩,
      (compute_pkill_set_killValue_mem info sink nodes v u).2 ⟨hu, hcons, hk⟩⟩

/-- Witness for `pkill_set_spec` at the concrete block `infoW` with
u = 1, v = 2. -/
theorem pkill_set_spec_witness :
    ((1 : Node) ∈ ([0, 1] : List Node)) ∧
    ((2 : Node) ∉ (infoW 2).descendantList) ∧
    (((2 : Node) ∈ (compute_pkill_set infoW 0 [0, 1]).pkiller 1 →
       ∀ x, x ∈ (infoW 2).descendantList → x ∈ (infoW 1).consumerList → x = 2)
    ∧ ((2 : Node) ∈ (infoW 1).consumerList →
       (∀ x, x ∈ (infoW 2).descendantList → x ∈ (infoW 1).consumerList → x = 2) →
       (2 : Node) ∈ (compute_pkill_set infoW 0 [0, 1]).pkiller 1 ∧
         (1 : Node) ∈ (compute_pkill_set infoW 0 [0, 1]).killValue 2)) :=
  ⟨by decide, by decide, pkill_set_spec infoW 0 [0, 1] 1 2 (by decide) (by decide)⟩

/-- A connected bipartite component (`struct _cbc`): parents S, children T,
kill edges E, and a deterministic number. -/
structure Cbc where
  parents : List Node
  children : List Node
  killEdges : List (Node × Node)
  nr : Nat
deriving DecidableEq

/-- Embeds `build_kill_edges`: the set EPK of edges from every interesting
node to each of its potential killers. -/
def build_kill_edges (pk : Node → List Node) (nodes : List Node) :
    List (Node × Node) :=
  nodes.foldl (fun acc u => (pk u).foldl (fun acc2 v => addUnique acc2 (u, v)) acc) []

/-- Growing parent/children sets of a component under construction. -/
structure CbcBuild where
  parents : List Node
  children : List Node

/-- Embeds the parent-accumulation half of the fixpoint loop of
`compute_bipartite_decomposition`: add every kill-value of any child. -/
def cbcGrowParents (kv : Node → List Node) (st : CbcBuild) : CbcBuild :=
  { st with parents := st.children.foldl (fun ps t => (kv t).foldl addUnique ps) st.parents }

/-- Embeds the child-accumulation half of the fixpoint loop: add every
potential killer of any parent. -/
def cbcGrowChildren (pk : Node → List Node) (st : CbcBuild) : CbcBuild :=
  { st with children := st.parents.foldl (fun cs s => (pk s).foldl addUnique cs) st.children }

/-- Embeds the `while (p_change || c_change)` fixpoint loop.  The C loop
iterates until a whole pass inserts nothing; since the sets only grow, a
pass changes nothing exactly when it preserves both lengths.  The loop is
bounded by explicit fuel; any fuel at least the number of values involved
reproduces the C fixpoint. -/
def cbcClosure (pk kv : Node → List Node) : Nat → CbcBuild → CbcBuild
  | 0, st => st
  | fuel + 1, st =>
    let st1 := cbcGrowChildren pk (cbcGrowParents kv st)
    if st1.parents.length = st.parents.length ∧
        st1.children.length = st.children.length then st1
    else cbcClosure pk kv fuel st1

/-- Embeds the construction of one component from an unvisited seed u:
seed parents with u and children with pkillers(u), run the fixpoint, drop
every parent from the children (bipartite enforcement), then move every EPK
edge running from a parent to a remaining child into the component.
Returns the component and the remaining EPK set. -/
def mkCbcParents (pk kv : Node → List Node) (fuel : Nat) (u : Node) : List Node :=
  (cbcClosure pk kv fuel { parents := [u], children := pk u }).parents

/-- The children of a component after bipartite enforcement: the fixpoint
children minus every node that is also a parent. -/
def mkCbcChildren (pk kv : Node → List Node) (fuel : Nat) (u : Node) : List Node :=
  ((cbcClosure pk kv fuel { parents := [u], children := pk u }).children).filter
    (fun c => !((mkCbcParents pk kv fuel u).contains c))

def mkCbc (pk kv : Node → List Node) (fuel : Nat) (u : Node)
    (epk : List (Node × Node)) (nr : Nat) : Cbc × List (Node × Node) :=
  ({ parents := mkCbcParents pk kv fuel u
     children := mkCbcChildren pk kv fuel u
     killEdges := epk.filter (fun e => (mkCbcParents pk kv fuel u).contains e.1 &&
       (mkCbcChildren pk kv fuel u).contains e.2)
     nr := nr },
   epk.filter (fun e => !((mkCbcParents pk kv fuel u).contains e.1 &&
     (mkCbcChildren pk kv fuel u).contains e.2)))

/-- Driver state of `compute_bipartite_decomposition`. -/
structure BipState where
  visited : List Node
  epk : List (Node × Node)
  comps : List Cbc
  curNum : Nat

/-- Embeds one iteration of the outer node loop of
`compute_bipartite_decomposition`: skip visited nodes and the Sink,
otherwise build a component, mark its parents visited and remove its kill
edges from EPK. -/
def bipStep (pk kv : Node → List Node) (sink : Node) (fuel : Nat)
    (st : BipState) (u : Node) : BipState :=
  if u ∈ st.visited ∨ u = sink then st
  else
    let pr := mkCbc pk kv fuel u st.epk st.curNum
    { visited := pr.1.parents.foldl addUnique st.visited
      epk := pr.2
      comps := st.comps ++ [pr.1]
      curNum := st.curNum + 1 }

/-- Embeds `compute_bipartite_decomposition`, returning the set of connected
bipartite components. -/
def compute_bipartite_decomposition (pk kv : Node → List Node) (sink : Node)
    (fuel : Nat) (nodes : List Node) : List Cbc :=
  (nodes.foldl (bipStep pk kv sink fuel)
    { visited := [], epk := build_kill_edges pk nodes, comps := [], curNum := 0 }).comps

theorem mkCbc_parents_not_children (pk kv : Node → List Node) (fuel : Nat)
    (u : Node) (epk : List (Node × Node)) (nr : Nat) :
    ∀ p ∈ (mkCbc pk kv fuel u epk nr).1.parents,
      p ∉ (mkCbc pk kv fuel u epk nr).1.children := by
  intro p hp hpc
  simp only [mkCbc] at hp hpc
  simp only [mkCbcChildren, List.mem_filter, Bool.not_eq_true'] at hpc
  rcases hpc with ⟨_, hnc⟩
  have hany : (mkCbcParents pk kv fuel u).contains p = true := by
    simpa using List.elem_eq_true_of_mem hp
  rw [hany] at hnc
  cases hnc

theorem mkCbc_killEdges_mem (pk kv : Node → List Node) (fuel : Nat)
    (u : Node) (epk : List (Node × Node)) (nr : Nat) :
    ∀ e ∈ (mkCbc pk kv fuel u epk nr).1.killEdges,
      e.1 ∈ (mkCbc pk kv fuel u epk nr).1.parents ∧
        e.2 ∈ (mkCbc pk kv fuel u epk nr).1.children := by
  intro e he
  simp only [mkCbc] at he ⊢
  simp only [List.mem_filter, Bool.and_eq_true] at he
  rcases he with ⟨_, h1, h2⟩
  constructor
  · simpa using h1
  · simpa using h2

theorem bipFold_comps_sound (pk kv : Node → List Node) (sink : Node) (fuel : Nat) :
    ∀ (nodes : List Node) (st : BipState),
      (∀ c ∈ st.comps,
        (∀ p ∈ c.parents, p ∉ c.children) ∧
          (∀ e ∈ c.killEdges, e.1 ∈ c.parents ∧ e.2 ∈ c.children)) →
      ∀ c ∈ (nodes.foldl (bipStep pk kv sink fuel) st).comps,
        (∀ p ∈ c.parents, p ∉ c.children) ∧
          (∀ e ∈ c.killEdges, e.1 ∈ c.parents ∧ e.2 ∈ c.children)
  | [], st, hst => hst
  | u :: nodes, st, hst => by
    rw [List.foldl_cons]
    refine bipFold_comps_sound pk kv sink fuel nodes _ ?_
    unfold bipStep
    by_cases hskip : u ∈ st.visited ∨ u = sink
    · simpa [hskip] using hst
    · simp only [hskip, if_neg, not_false_iff]
      intro c hc
      rcases List.mem_append.1 hc with hc | hc
      · exact hst c hc
      · rcases List.mem_singleton.1 hc with rfl
        exact ⟨mkCbc_parents_not_children pk kv fuel u st.epk st.curNum,
          mkCbc_killEdges_mem pk kv fuel u st.epk st.curNum⟩

/-- C7 (amended): every component produced by the bipartite decomposition
has disjoint parent and child sets, and every kill edge of the component
runs from one of its parents to one of its children.  (The further
conjunct of the claim, that every parent is the source of at least one
kill edge, fails; see the counterexample.) -/
theorem cbc_partition_invariant (pk kv : Node → List Node) (sink : Node)
    (fuel : Nat) (nodes : List Node) (c : Cbc)
    (hc : c ∈ compute_bipartite_decomposition pk kv sink fuel nodes) :
    (∀ p ∈ c.parents, p ∉ c.children) ∧
      (∀ e ∈ c.killEdges, e.1 ∈ c.parents ∧ e.2 ∈ c.children) := by
  refine bipFold_comps_sound pk kv sink fuel nodes _ ?_ c hc
  intro c hc
  cases hc

/-- Concrete pkiller table used by witnesses: value 1 is potentially killed
by node 2 only. -/
def pkW : Node → List Node := fun n => if n = 1 then [2] else []

/-- Concrete kill-value table matching `pkW`. -/
def kvW : Node → List Node := fun n => if n = 2 then [1] else []

/-- Witness for `cbc_partition_invariant` on the concrete one-component
decomposition of `pkW`. -/
theorem cbc_partition_invariant_witness :
    ((⟨[1], [2], [(1, 2)], 0⟩ : Cbc) ∈
        compute_bipartite_decomposition pkW kvW 0 3 [0, 1]) ∧
    ((∀ p ∈ ([1] : List Node), p ∉ ([2] : List Node)) ∧
      (∀ e ∈ ([(1, 2)] : List (Node × Node)),
        e.1 ∈ ([1] : List Node) ∧ e.2 ∈ ([2] : List Node))) :=
  ⟨by decide, cbc_partition_invariant pkW kvW 0 3 [0, 1] ⟨[1], [2], [(1, 2)], 0⟩ (by decide)⟩

/-- Counterexample for C7: with a value that has no potential killers (for
instance a value without consumers), the decomposition yields a component
whose single parent is the source of no kill edge, refuting the conjunct
that every parent is the source of at least one kill edge of its
component. -/
theorem cbc_parent_without_kill_edge :
    ¬ (∀ c ∈ compute_bipartite_decomposition (fun _ => []) (fun _ => []) 0 3 [0, 1],
        ∀ p ∈ c.parents, ∃ e ∈ c.killEdges, e.1 = p) := by
  decide

/-- Exact representation of the `float` cost num/den handled by
`select_child_max_cost`: the numerator is a count of unkilled parents (or
the initial maximum -1), the denominator a positive descendant count.
Comparisons cross-multiply, which agrees with the real-valued comparisons
the C code performs on these quotients. -/
structure CostQ where
  num : Int
  den : Nat
deriving DecidableEq

/-- Strict order on costs by cross multiplication. -/
def costLt (a b : CostQ) : Bool :=
  a.num * (b.den : Int) < b.num * (a.den : Int)

/-- Weak order on costs by cross multiplication (used by the qsort
comparator `cmp_child_costs`). -/
def costLe (a b : CostQ) : Bool :=
  a.num * (b.den : Int) ≤ b.num * (a.den : Int)

/-- A child with its associated cost (`struct _child`), zero-initialized in
the C code before selection. -/
structure ChildC where
  irn : Option Node
  cost : CostQ
deriving DecidableEq

/-- Embeds the cost computation of `select_child_max_cost`: the number of
kill edges from the child into the still-uncovered parent set X, divided by
the cumulated descendant count when that count is positive. -/
def childCost (descList : Node → List Node) (x y : List Node) (cbc : Cbc)
    (child : Node) : CostQ :=
  { num := ((cbc.killEdges.filter (fun e => e.2 = child ∧ e.1 ∈ x)).length : Int)
    den := if 0 < (descList child).length + y.length
           then (descList child).length + y.length else 1 }

/-- Embeds `select_child_max_cost`: scan the children of the component and
keep the first child of maximal cost (strict improvement over a running
maximum that starts at -1; the returned record keeps its zero initialization
when the component has no children). -/
def select_child_max_cost (descList : Node → List Node) (x y : List Node)
    (cbc : Cbc) : ChildC :=
  (cbc.children.foldl
    (fun (acc : ChildC × CostQ) child =>
      if costLt acc.2 (childCost descList x y cbc child) then
        ({ irn := some child, cost := childCost descList x y cbc child },
         childCost descList x y cbc child)
      else acc)
    ({ irn := none, cost := { num := 0, den := 1 } }, { num := -1, den := 1 })).1

/-- Embeds `remove_covered_parents`: every kill edge of the component whose
target is the selected child and whose source is still in X moves that
source from X to the parent list of the child. -/
def remove_covered_parents (killEdges : List (Node × Node)) (x : List Node)
    (t : Node) (plist : Node → List Node) : List Node × (Node → List Node) :=
  killEdges.foldl
    (fun (acc : List Node × (Node → List Node)) e =>
      if e.2 = t ∧ e.1 ∈ acc.1 then
        (acc.1.erase e.1, fun n => if n = t then acc.2 t ++ [e.1] else acc.2 n)
      else acc)
    (x, plist)

/-- Embeds `update_cumulated_descendent_values`: union the descendants of
the selected child into Y. -/
def update_cumulated_descendants (descList : Node → List Node) (y : List Node)
    (t : Node) : List Node :=
  (descList t).foldl addUnique y

/-- Embeds the `while (nodeset_count(x) > 0)` loop of
`compute_killing_function`.  When the selection returns no child (an empty
child set with uncovered parents) the C code dereferences a NULL node, so
the model aborts with `none`.  The C loop is unbounded; the fuel passed by
the caller bounds the number of iterations, each of which normally removes
at least one parent from X. -/
def greedyLoop (descList : Node → List Node) (cbc : Cbc) :
    Nat → List Node → List Node → List ChildC → (Node → List Node) →
    Option (List ChildC × (Node → List Node))
  | 0, _, _, sks, plist => some (sks, plist)
  | fuel + 1, x, y, sks, plist =>
    if x.isEmpty then some (sks, plist)
    else
      match (select_child_max_cost descList x y cbc).irn with
      | none => none
      | some tn =>
        greedyLoop descList cbc fuel
          (remove_covered_parents cbc.killEdges x tn plist).1
          (update_cumulated_descendants descList y tn)
          (sks ++ [{ irn := some tn, cost := (select_child_max_cost descList x y cbc).cost }])
          (remove_covered_parents cbc.killEdges x tn plist).2

/-- Killer assignment state built by `compute_killing_function` on top of
the potential-killer analysis. -/
structure KfState where
  killer : Node → Option Node
  parentList : Node → List Node

/-- Embeds the killer-assignment inner loop of `compute_killing_function`:
for one SKS entry t (processed in decreasing cost order), assign t as
killer to each of its recorded parents whose killer is still Sink
(first-assigned wins). -/
def assignFromChild (plist : Node → List Node) (sink : Node)
    (killer : Node → Option Node) (t : ChildC) : Node → Option Node :=
  match t.irn with
  | none => killer
  | some tn =>
    (plist tn).foldl
      (fun k par =>
        if k par = some sink then (fun n => if n = par then some tn else k n) else k)
      killer

/-- Embeds the processing of one bipartite component inside
`compute_killing_function`: run the greedy selection starting from
X = parents, sort the selected killer set by increasing cost, then walk it
in decreasing cost order assigning killers. -/
def processCbc (descList : Node → List Node) (sink : Node) (st : KfState)
    (cbc : Cbc) : Option KfState :=
  match greedyLoop descList cbc (cbc.parents.length + 1) cbc.parents [] []
      st.parentList with
  | none => none
  | some (sks, plist2) =>
    some
      { killer :=
          ((sks.insertionSort (fun a b => costLe a.cost b.cost = true)).reverse).foldl
            (assignFromChild plist2 sink) st.killer
        parentList := plist2 }

/-- Embeds `compute_killing_function`: compute the bipartite decomposition,
then process every component.  The killer function starts from the
Sink-initialization performed by `compute_pkill_set`; the per-node parent
lists start empty (fresh phase data). -/
def compute_killing_function (info : Node → NodeInfo) (sink : Node)
    (nodes : List Node) (fuel : Nat) : Option KfState :=
  (compute_bipartite_decomposition (compute_pkill_set info sink nodes).pkiller
      (compute_pkill_set info sink nodes).killValue sink fuel nodes).foldl
    (fun acc cbc =>
      acc.bind (fun st => processCbc (fun n => (info n).descendantList) sink st cbc))
    (some { killer := (compute_pkill_set info sink nodes).killer,
            parentList := fun _ => [] })

theorem processConsumer_killer (info : Node → NodeInfo) (u : Node)
    (st : PkState) (v : Node) :
    (processConsumer info u st v).killer = st.killer := by
  unfold processConsumer
  split <;> rfl

theorem consumerFold_killer (info : Node → NodeInfo) (u : Node) :
    ∀ (cl : List Node) (st : PkState),
      (cl.foldl (processConsumer info u) st).killer = st.killer
  | [], st => rfl
  | v :: cl, st => by
    rw [List.foldl_cons, consumerFold_killer info u cl, processConsumer_killer]

theorem pkillFold_killer (info : Node → NodeInfo) (sink : Node) :
    ∀ (nodes : List Node) (st : PkState) (u : Node),
      (nodes.foldl (processPkNode info sink) st).killer u =
        if u ∈ nodes then some sink else st.killer u
  | [], st, u => by simp
  | a :: nodes, st, u => by
    rw [List.foldl_cons, pkillFold_killer info sink nodes]
    have ha : (processPkNode info sink st a).killer u =
        if u = a then some sink else st.killer u := by
      unfold processPkNode
      simp [consumerFold_killer]
    by_cases hu : u ∈ nodes
    · simp [hu, List.mem_cons]
    · by_cases hua : u = a
      · subst hua
        simp [hu, ha]
      · simp [hu, hua, ha]

theorem compute_pkill_set_killer (info : Node → NodeInfo) (sink : Node)
    (nodes : List Node) (u : Node) :
    (compute_pkill_set info sink nodes).killer u =
      if u ∈ nodes then some sink else none := by
  unfold compute_pkill_set
  rw [pkillFold_killer]
  rfl

theorem killEdgeFold_mem (u : Node) :
    ∀ (l : List Node) (acc : List (Node × Node)) (e : Node × Node),
      e ∈ l.foldl (fun acc2 v => addUnique acc2 (u, v)) acc →
      e ∈ acc ∨ (e.1 = u ∧ e.2 ∈ l)
  | [], _, e, he => Or.inl he
  | v :: l, acc, e, he => by
    rw [List.foldl_cons] at he
    rcases killEdgeFold_mem u l _ e he with h | ⟨h1, h2⟩
    · rcases mem_addUnique.1 h with h | rfl
      · exact Or.inl h
      · exact Or.inr ⟨rfl, List.mem_cons_self _ _⟩
    · exact Or.inr ⟨h1, List.mem_cons_of_mem _ h2⟩

theorem build_kill_edges_mem (pk : Node → List Node) :
    ∀ (nodes : List Node) (acc : List (Node × Node)) (e : Node × Node),
      e ∈ nodes.foldl (fun a u => (pk u).foldl (fun a2 v => addUnique a2 (u, v)) a) acc →
      e ∈ acc ∨ e.2 ∈ pk e.1
  | [], _, e, he => Or.inl he
  | u :: nodes, acc, e, he => by
    rw [List.foldl_cons] at he
    rcases build_kill_edges_mem pk nodes _ e he with h | h
    · rcases killEdgeFold_mem u (pk u) acc e h with h | ⟨h1, h2⟩
      · exact Or.inl h
      · exact Or.inr (h1 ▸ h2)
    · exact Or.inr h

theorem mkCbc_killEdges_sub (pk kv : Node → List Node) (fuel : Nat) (u : Node)
    (epk : List (Node × Node)) (nr : Nat) :
    ∀ e ∈ (mkCbc pk kv fuel u epk nr).1.killEdges, e ∈ epk := by
  intro e he
  simp only [mkCbc] at he
  exact (List.mem_filter.1 he).1

theorem mkCbc_epkRest_sub (pk kv : Node → List Node) (fuel : Nat) (u : Node)
    (epk : List (Node × Node)) (nr : Nat) :
    ∀ e ∈ (mkCbc pk kv fuel u epk nr).2, e ∈ epk := by
  intro e he
  simp only [mkCbc] at he
  exact (List.mem_filter.1 he).1

theorem bipFold_killEdges_pk (pk kv : Node → List Node) (sink : Node) (fuel : Nat) :
    ∀ (nodes : List Node) (st : BipState),
      (∀ e ∈ st.epk, e.2 ∈ pk e.1) →
      (∀ c ∈ st.comps, ∀ e ∈ c.killEdges, e.2 ∈ pk e.1) →
      ∀ c ∈ (nodes.foldl (bipStep pk kv sink fuel) st).comps,
        ∀ e ∈ c.killEdges, e.2 ∈ pk e.1
  | [], _, _, hcomps => hcomps
  | u :: nodes, st, hepk, hcomps => by
    rw [List.foldl_cons]
    by_cases hskip : u ∈ st.visited ∨ u = sink
    · refine bipFold_killEdges_pk pk kv sink fuel nodes _ ?_ ?_
      · unfold bipStep
        simpa [hskip] using hepk
      · unfold bipStep
        simpa [hskip] using hcomps
    · refine bipFold_killEdges_pk pk kv sink fuel nodes _ ?_ ?_
      · unfold bipStep
        simp only [hskip, if_neg, not_false_iff]
        intro e he
        exact hepk e (mkCbc_epkRest_sub pk kv fuel u st.epk st.curNum e he)
      · unfold bipStep
        simp only [hskip, if_neg, not_false_iff]
        intro c hc e he
        rcases List.mem_append.1 hc with hc | hc
        · exact hcomps c hc e he
        · rcases List.mem_singleton.1 hc with rfl
          exact hepk e (mkCbc_killEdges_sub pk kv fuel u st.epk st.curNum e he)

theorem bip_decomposition_killEdges_pk (pk kv : Node → List Node) (sink : Node)
    (fuel : Nat) (nodes : List Node) :
    ∀ c ∈ compute_bipartite_decomposition pk kv sink fuel nodes,
      ∀ e ∈ c.killEdges, e.2 ∈ pk e.1 := by
  refine bipFold_killEdges_pk pk kv sink fuel nodes _ ?_ ?_
  · intro e he
    rcases build_kill_edges_mem pk nodes [] e he with h | h
    · cases h
    · exact h
  · intro c hc
    cases hc

theorem remove_covered_parents_plist_mem (t : Node) :
    ∀ (ke : List (Node × Node)) (x : List Node) (plist : Node → List Node)
      (t2 p : Node),
      p ∈ (remove_covered_parents ke x t plist).2 t2 →
      p ∈ plist t2 ∨ (t2 = t ∧ (p, t) ∈ ke)
  | [], _, _, _, _, hp => Or.inl hp
  | e :: ke, x, plist, t2, p, hp => by
    unfold remove_covered_parents at hp
    rw [List.foldl_cons] at hp
    by_cases hcond : e.2 = t ∧ e.1 ∈ x
    · simp only [hcond, if_pos] at hp
      have hp2 : p ∈ (remove_covered_parents ke (x.erase e.1) t
          (fun n => if n = t then plist t ++ [e.1] else plist n)).2 t2 := hp
      rcases remove_covered_parents_plist_mem t ke _ _ t2 p hp2 with h | ⟨ht2, hin⟩
      · by_cases ht2 : t2 = t
        · subst ht2
          simp only [if_pos] at h
          rcases List.mem_append.1 h with h | h
          · exact Or.inl h
          · rcases List.mem_singleton.1 h with rfl
            refine Or.inr ⟨rfl, ?_⟩
            have hee : (e.1, t2) = e := Prod.ext rfl hcond.1.symm
            rw [hee]
            exact List.mem_cons_self _ _
        · simp only [ht2, if_neg, not_false_iff] at h
          exact Or.inl h
      · exact Or.inr ⟨ht2, List.mem_cons_of_mem _ hin⟩
    · simp only [hcond, if_neg, not_false_iff] at hp
      rcases remove_covered_parents_plist_mem t ke x plist t2 p hp with h | ⟨ht2, hin⟩
      · exact Or.inl h
      · exact Or.inr ⟨ht2, List.mem_cons_of_mem _ hin⟩

theorem greedyLoop_plist_sound (descList : Node → List Node)
    (pkRel : Node → List Node) (cbc : Cbc)
    (hke : ∀ e ∈ cbc.killEdges, e.2 ∈ pkRel e.1) :
    ∀ (fuel : Nat) (x y : List Node) (sks : List ChildC)
      (plist : Node → List Node),
      (∀ t p, p ∈ plist t → t ∈ pkRel p) →
      ∀ res, greedyLoop descList cbc fuel x y sks plist = some res →
        ∀ t p, p ∈ res.2 t → t ∈ pkRel p
  | 0, x, y, sks, plist, hpl, res, hres => by
    unfold greedyLoop at hres
    cases hres
    exact hpl
  | fuel + 1, x, y, sks, plist, hpl, res, hres => by
    unfold greedyLoop at hres
    by_cases hx : x.isEmpty = true
    · simp only [hx, if_pos] at hres
      cases hres
      exact hpl
    · simp only [hx, if_neg, not_false_iff] at hres
      cases hsel : (select_child_max_cost descList x y cbc).irn with
      | none =>
        rw [hsel] at hres
        cases hres
      | some tn =>
        rw [hsel] at hres
        refine greedyLoop_plist_sound descList pkRel cbc hke fuel _ _ _ _ ?_ res hres
        intro t2 p hp
        rcases remove_covered_parents_plist_mem tn cbc.killEdges x plist t2 p hp with
          h | ⟨rfl, hin⟩
        · exact hpl t2 p h
        · exact hke (p, t2) hin

theorem assignChildFold_cases (sink tn : Node) :
    ∀ (pl : List Node) (k : Node → Option Node) (u : Node),
      (pl.foldl (fun k2 par =>
          if k2 par = some sink then (fun n => if n = par then some tn else k2 n)
          else k2) k) u = k u ∨
        (u ∈ pl ∧
          (pl.foldl (fun k2 par =>
            if k2 par = some sink then (fun n => if n = par then some tn else k2 n)
            else k2) k) u = some tn)
  | [], _, _ => Or.inl rfl
  | par :: pl, k, u => by
    rw [List.foldl_cons]
    rcases assignChildFold_cases sink tn pl _ u with h | ⟨hu, hv⟩
    · rw [h]
      by_cases hc : k par = some sink
      · simp only [hc, if_pos]
        by_cases hup : u = par
        · subst hup
          exact Or.inr ⟨List.mem_cons_self _ _, by simp⟩
        · left
          simp [hup]
      · left
        simp [hc]
    · exact Or.inr ⟨List.mem_cons_of_mem _ hu, hv⟩

theorem assignFromChild_cases (plist : Node → List Node) (sink : Node)
    (killer : Node → Option Node) (t : ChildC) (u : Node) :
    assignFromChild plist sink killer t u = killer u ∨
      ∃ tn, u ∈ plist tn ∧ assignFromChild plist sink killer t u = some tn := by
  unfold assignFromChild
  cases ht : t.irn with
  | none => exact Or.inl rfl
  | some tn =>
    rcases assignChildFold_cases sink tn (plist tn) killer u with h | ⟨hu, hv⟩
    · exact Or.inl h
    · exact Or.inr ⟨tn, hu, hv⟩

theorem assignFold_killer_cases (plist : Node → List Node) (sink : Node) :
    ∀ (l : List ChildC) (killer : Node → Option Node) (u : Node),
      (l.foldl (assignFromChild plist sink) killer) u = killer u ∨
        ∃ tn, u ∈ plist tn ∧
          (l.foldl (assignFromChild plist sink) killer) u = some tn
  | [], _, _ => Or.inl rfl
  | t :: l, killer, u => by
    rw [List.foldl_cons]
    rcases assignFold_killer_cases plist sink l (assignFromChild plist sink killer t) u with
      h | hr
    · rw [h]
      exact assignFromChild_cases plist sink killer t u
    · exact Or.inr hr

theorem processCbc_sound (descList : Node → List Node)
    (pkRel : Node → List Node) (sink : Node) (cbc : Cbc)
    (hke : ∀ e ∈ cbc.killEdges, e.2 ∈ pkRel e.1)
    (st : KfState)
    (hpl : ∀ t p, p ∈ st.parentList t → t ∈ pkRel p)
    (k0 : Node → Option Node)
    (hk : ∀ u, st.killer u = k0 u ∨ ∃ t, st.killer u = some t ∧ t ∈ pkRel u)
    (st2 : KfState) (hst2 : processCbc descList sink st cbc = some st2) :
    (∀ t p, p ∈ st2.parentList t → t ∈ pkRel p) ∧
      (∀ u, st2.killer u = k0 u ∨ ∃ t, st2.killer u = some t ∧ t ∈ pkRel u) := by
  unfold processCbc at hst2
  cases hg : greedyLoop descList cbc (cbc.parents.length + 1) cbc.parents [] []
      st.parentList with
  | none =>
    rw [hg] at hst2
    cases hst2
  | some res =>
    rw [hg] at hst2
    have hplist2 : ∀ t p, p ∈ res.2 t → t ∈ pkRel p :=
      greedyLoop_plist_sound descList pkRel cbc hke _ _ _ _ _ hpl res hg
    cases hst2
    constructor
    · exact hplist2
    · intro v
      dsimp only
      rcases assignFold_killer_cases res.2 sink
          ((res.1.insertionSort (fun a b => costLe a.cost b.cost = true)).reverse) st.killer v with
        h | ⟨tn, htn, hval⟩
      · rw [h]
        exact hk v
      · exact Or.inr ⟨tn, hval, hplist2 tn v htn⟩

theorem kfFold_sound (descList : Node → List Node) (pkRel : Node → List Node)
    (sink : Node) (k0 : Node → Option Node) :
    ∀ (cbcs : List Cbc),
      (∀ c ∈ cbcs, ∀ e ∈ c.killEdges, e.2 ∈ pkRel e.1) →
      ∀ (acc : Option KfState),
      (∀ st, acc = some st →
        (∀ t p, p ∈ st.parentList t → t ∈ pkRel p) ∧
        (∀ u, st.killer u = k0 u ∨ ∃ t, st.killer u = some t ∧ t ∈ pkRel u)) →
      ∀ st2,
        cbcs.foldl (fun a c => a.bind (fun st => processCbc descList sink st c)) acc
          = some st2 →
        (∀ t p, p ∈ st2.parentList t → t ∈ pkRel p) ∧
        (∀ u, st2.killer u = k0 u ∨ ∃ t, st2.killer u = some t ∧ t ∈ pkRel u)
  | [], _, acc, hacc, st2, hfold => hacc st2 hfold
  | c :: cbcs, hcbcs, acc, hacc, st2, hfold => by
    rw [List.foldl_cons] at hfold
    refine kfFold_sound descList pkRel sink k0 cbcs
      (fun c2 hc2 => hcbcs c2 (List.mem_cons_of_mem _ hc2)) _ ?_ st2 hfold
    intro st hst
    cases acc with
    | none => cases hst
    | some st1 =>
      exact processCbc_sound descList pkRel sink c
        (hcbcs c (List.mem_cons_self _ _)) st1 (hacc st1 rfl).1 k0 (hacc st1 rfl).2
        st hst

/-- C5: after the greedy killing-function selection, every candidate value u
in the node list has a killer that is either Sink or a member of
pkillers(u): the descending-cost assignment pass only ever assigns killers
recorded through kill edges, which all point into the pkiller sets. -/
theorem killing_function_killer_in_pkillers (info : Node → NodeInfo)
    (sink : Node) (nodes : List Node) (fuel : Nat) (u : Node) (hu : u ∈ nodes)
    (kf : KfState) (hkf : compute_killing_function info sink nodes fuel = some kf) :
    kf.killer u = some sink ∨
      ∃ t, kf.killer u = some t ∧
        t ∈ (compute_pkill_set info sink nodes).pkiller u := by
  unfold compute_killing_function at hkf
  have h := kfFold_sound (fun n => (info n).descendantList)
    (compute_pkill_set info sink nodes).pkiller sink
    (compute_pkill_set info sink nodes).killer
    (compute_bipartite_decomposition (compute_pkill_set info sink nodes).pkiller
      (compute_pkill_set info sink nodes).killValue sink fuel nodes)
    (bip_decomposition_killEdges_pk _ _ sink fuel nodes)
    (some { killer := (compute_pkill_set info sink nodes).killer,
            parentList := fun _ => [] })
    (by
      intro st hst
      cases hst
      exact ⟨fun t p hp => absurd hp (List.not_mem_nil p), fun v => Or.inl rfl⟩)
    kf hkf
  rcases h.2 u with h0 | ⟨t, hval, hmem⟩
  · left
    rw [h0, compute_pkill_set_killer info sink nodes u, if_pos hu]
  · exact Or.inr ⟨t, hval, hmem⟩

/-- Witness for `killing_function_killer_in_pkillers` at the concrete block
`infoW`: node 1 ends up killed by node 2, its unique potential killer. -/
theorem killing_function_killer_in_pkillers_witness :
    ((1 : Node) ∈ ([0, 1] : List Node)) ∧
    ∃ kf, compute_killing_function infoW 0 [0, 1] 3 = some kf ∧
      (kf.killer 1 = some 0 ∨
        ∃ t, kf.killer 1 = some t ∧
          t ∈ (compute_pkill_set infoW 0 [0, 1]).pkiller 1) := by
  refine ⟨by decide, ?_⟩
  have hs : (compute_killing_function infoW 0 [0, 1] 3).isSome = true := by rfl
  cases hkf : compute_killing_function infoW 0 [0, 1] 3 with
  | none =>
    rw [hkf] at hs
    cases hs
  | some kf =>
    exact ⟨kf, rfl,
      killing_function_killer_in_pkillers infoW 0 [0, 1] 3 1 (by decide) kf hkf⟩

/-- A disjoint value DAG (`struct _dvg`): a node set and an edge set. -/
structure Dvg where
  nodes : List Node
  edges : List (Node × Node)
deriving DecidableEq

/-- Embeds the killer-chain walk of `compute_dvg`:
`while (cur_killer != old_killer)` add an edge from u to the current
killer, then step to the killer of the killer.  A NULL current killer that
differs from the previous one would make the C code dereference NULL
(`none` result); exhausted fuel models a walk that does not terminate
within the given bound (the C loop is unbounded and relies on Sink being
its own killer). -/
def killerWalk (killer : Node → Option Node) (u : Node) :
    Option Node → Option Node → Nat → Option (List (Node × Node))
  | _, _, 0 => none
  | old, cur, fuel + 1 =>
    if cur = old then some []
    else
      match cur with
      | none => none
      | some c =>
        (killerWalk killer u (some c) (killer c) fuel).map (fun es => (u, c) :: es)

/-- Embeds `compute_dvg`: for every interesting node insert the node and
walk its killer chain, inserting every traversed killer and every edge
from u to a traversed killer (the edge pset deduplicates). -/
def compute_dvg (killer : Node → Option Node) (nodes : List Node) (fuel : Nat) :
    Option Dvg :=
  nodes.foldl
    (fun od u => od.bind (fun d =>
      (killerWalk killer u none (killer u) fuel).map (fun es =>
        { nodes := es.foldl (fun ns e => addUnique ns e.2) (addUnique d.nodes u)
          edges := es.foldl (fun acc e => addUnique acc e) d.edges })))
    (some { nodes := [], edges := [] })

theorem foldl_addUnique_mem {α : Type} [DecidableEq α] :
    ∀ (l : List α) (acc : List α) (x : α),
      x ∈ l.foldl addUnique acc ↔ x ∈ acc ∨ x ∈ l
  | [], acc, x => by simp
  | a :: l, acc, x => by
    rw [List.foldl_cons, foldl_addUnique_mem l]
    rw [mem_addUnique]
    constructor
    · rintro ((h | rfl) | h)
      · exact Or.inl h
      · exact Or.inr (List.mem_cons_self _ _)
      · exact Or.inr (List.mem_cons_of_mem _ h)
    · rintro (h | h)
      · exact Or.inl (Or.inl h)
      · rcases List.mem_cons.1 h with rfl | h
        · exact Or.inl (Or.inr rfl)
        · exact Or.inr h

theorem killerWalk_edges_sound (killer : Node → Option Node) (sink : Node)
    (r : Node → Nat)
    (hr : ∀ v w, v ≠ sink → killer v = some w → r v < r w)
    (hks : killer sink = some sink) (u : Node) :
    ∀ (fuel : Nat) (old cur : Option Node) (es : List (Node × Node)),
      killerWalk killer u old cur fuel = some es →
      (∀ c, cur = some c → (u = sink ∧ c = sink) ∨ r u < r c) →
      ∀ e ∈ es, e = (sink, sink) ∨ (e.1 = u ∧ r u < r e.2)
  | 0, old, cur, es, hes, _ => by
    unfold killerWalk at hes
    cases hes
  | fuel + 1, old, cur, es, hes, hinv => by
    unfold killerWalk at hes
    by_cases hco : cur = old
    · simp only [hco, if_pos] at hes
      cases hes
      intro e he
      cases he
    · simp only [hco, if_neg, not_false_iff] at hes
      cases hcur : cur with
      | none =>
        rw [hcur] at hes
        cases hes
      | some c =>
        rw [hcur] at hes
        dsimp only at hes
        cases hrec : killerWalk killer u (some c) (killer c) fuel with
        | none =>
          rw [hrec] at hes
          cases hes
        | some es2 =>
          rw [hrec] at hes
          dsimp only [Option.map] at hes
          cases hes
          intro e he
          rcases List.mem_cons.1 he with rfl | he2
          · rcases hinv c hcur with ⟨rfl, rfl⟩ | hlt
            · exact Or.inl rfl
            · exact Or.inr ⟨rfl, hlt⟩
          · refine killerWalk_edges_sound killer sink r hr hks u fuel
              (some c) (killer c) es2 hrec ?_ e he2
            intro c2 hc2
            rcases hinv c hcur with ⟨rfl, rfl⟩ | hlt
            · rw [hks] at hc2
              cases hc2
              exact Or.inl ⟨rfl, rfl⟩
            · by_cases hcs : c = sink
              · subst hcs
                rw [hks] at hc2
                cases hc2
                exact Or.inr hlt
              · exact Or.inr (lt_trans hlt (hr c c2 hcs hc2))

theorem compute_dvg_edges_sound (killer : Node → Option Node) (sink : Node)
    (r : Node → Nat)
    (hr : ∀ v w, v ≠ sink → killer v = some w → r v < r w)
    (hks : killer sink = some sink) (fuel : Nat) :
    ∀ (nodes : List Node) (acc : Option Dvg),
      (∀ dacc, acc = some dacc →
        ∀ e ∈ dacc.edges, e = (sink, sink) ∨ r e.1 < r e.2) →
      ∀ d, nodes.foldl
          (fun od u => od.bind (fun d2 =>
            (killerWalk killer u none (killer u) fuel).map (fun es =>
              { nodes := es.foldl (fun ns e => addUnique ns e.2) (addUnique d2.nodes u)
                edges := es.foldl (fun a e => addUnique a e) d2.edges }))) acc
          = some d →
        ∀ e ∈ d.edges, e = (sink, sink) ∨ r e.1 < r e.2
  | [], acc, hacc, d, hd => hacc d hd
  | u :: nodes, acc, hacc, d, hd => by
    rw [List.foldl_cons] at hd
    refine compute_dvg_edges_sound killer sink r hr hks fuel nodes _ ?_ d hd
    intro dacc hdacc
    cases acc with
    | none => cases hdacc
    | some d2 =>
      simp only [Option.some_bind] at hdacc
      cases hwalk : killerWalk killer u none (killer u) fuel with
      | none =>
        rw [hwalk] at hdacc
        cases hdacc
      | some es =>
        rw [hwalk] at hdacc
        dsimp only [Option.map] at hdacc
        cases hdacc
        intro e he
        rcases (foldl_addUnique_mem es d2.edges e).1 he with he2 | he2
        · exact hacc d2 rfl e he2
        · have hwinv : ∀ c, killer u = some c → (u = sink ∧ c = sink) ∨ r u < r c := by
            intro c hc
            by_cases hus : u = sink
            · subst hus
              rw [hks] at hc
              cases hc
              exact Or.inl ⟨rfl, rfl⟩
            · exact Or.inr (hr u c hus hc)
          rcases killerWalk_edges_sound killer sink r hr hks u fuel none (killer u)
              es hwalk hwinv e he2 with h | ⟨heq, hlt⟩
          · exact Or.inl h
          · refine Or.inr ?_
            rw [heq]
            exact hlt

/-- C6 (amended): except for the synthetic self-edge (Sink, Sink) that the
killer-chain walk always inserts for Sink (Sink is its own killer yet the
first loop iteration runs because old_killer starts as NULL), the DVG is a
strict DAG: under any rank function witnessing that every killer lies
strictly above its value (as in an acyclic block), every other edge
strictly increases the rank, hence has distinct endpoints and no reverse
edge. -/
theorem dvg_strict_dag_except_sink (killer : Node → Option Node) (sink : Node)
    (r : Node → Nat)
    (hr : ∀ v w, v ≠ sink → killer v = some w → r v < r w)
    (hks : killer sink = some sink)
    (nodes : List Node) (fuel : Nat) (d : Dvg)
    (hd : compute_dvg killer nodes fuel = some d) :
    ∀ e ∈ d.edges, e ≠ (sink, sink) →
      r e.1 < r e.2 ∧ e.1 ≠ e.2 ∧ (e.2, e.1) ∉ d.edges := by
  have hsound := compute_dvg_edges_sound killer sink r hr hks fuel nodes
    (some { nodes := [], edges := [] })
    (by
      intro dacc hdacc
      cases hdacc
      intro e he
      cases he)
    d hd
  intro e he hne
  rcases hsound e he with h | hlt
  · exact absurd h hne
  · refine ⟨hlt, ?_, ?_⟩
    · intro heq
      rw [heq] at hlt
      exact lt_irrefl _ hlt
    · intro hrev
      rcases hsound (e.2, e.1) hrev with h2 | hlt2
      · have h21 : e.2 = sink := congrArg Prod.fst h2
        have h22 : e.1 = sink := congrArg Prod.snd h2
        exact hne (Prod.ext h22 h21)
      · exact absurd hlt (not_lt_of_gt hlt2)

/-- Witness for `dvg_strict_dag_except_sink`: killer function sending every
value to Sink = 5, rank 0 for values and 1 for Sink. -/
theorem dvg_strict_dag_except_sink_witness :
    (∀ v w : Node, v ≠ 5 → (fun _ : Node => some (5 : Node)) v = some w →
      (fun n : Node => if n = 5 then 1 else 0) v <
        (fun n : Node => if n = 5 then 1 else 0) w) ∧
    ((fun _ : Node => some (5 : Node)) 5 = some 5) ∧
    (compute_dvg (fun _ => some 5) [5, 1] 3 =
      some { nodes := [5, 1], edges := [(5, 5), (1, 5)] }) ∧
    (∀ e ∈ ({ nodes := [5, 1], edges := [(5, 5), (1, 5)] } : Dvg).edges,
      e ≠ (5, 5) →
        (fun n : Node => if n = 5 then 1 else 0) e.1 <
            (fun n : Node => if n = 5 then 1 else 0) e.2 ∧
          e.1 ≠ e.2 ∧
          (e.2, e.1) ∉ ({ nodes := [5, 1], edges := [(5, 5), (1, 5)] } : Dvg).edges) := by
  refine ⟨?_, rfl, by decide, ?_⟩
  · intro v w hv hw
    cases hw
    simp [hv]
  · exact dvg_strict_dag_except_sink (fun _ => some 5) 5
      (fun n => if n = 5 then 1 else 0)
      (by
        intro v w hv hw
        cases hw
        simp [hv])
      rfl [5, 1] 3 _ (by decide)

/-- Counterexample for C6: the DVG built by `compute_dvg` always contains
the self-edge (Sink, Sink), because Sink is its own killer and the walk
starts with old_killer = NULL, so the claimed absence of self-edges fails
on every run (shown here on a block with Sink = 0 and one value killed by
Sink). -/
theorem dvg_sink_self_edge :
    ¬ (∀ d, compute_dvg (fun _ => some 0) [0, 1] 3 = some d →
        ∀ e ∈ d.edges, e.1 ≠ e.2 ∧ (e.2, e.1) ∉ d.edges) := by
  intro hP
  have hd : compute_dvg (fun _ => some 0) [0, 1] 3 =
      some { nodes := [0, 1], edges := [(0, 0), (1, 0)] } := by decide
  have h := hP _ hd (0, 0) (by decide)
  exact h.1 rfl

/-- Helper for `chainPred`: scan the rest of the chain remembering the
previous element; return that element when the value is found. -/
def chainPredGo (prev : Node) : List Node → Node → Option Node
  | [], _ => none
  | a :: l, u => if a = u then some prev else chainPredGo a l u

/-- Embeds `plist_find_value` followed by `plist_element_get_prev` in the
antichain refinement: the element before the first occurrence of u in its
chain, or `none` when u heads the chain.  (If u were missing from the chain
the C code would fail its assertion; the model returns `none`, a case the
verified pipeline never reaches.) -/
def chainPred : List Node → Node → Option Node
  | [], _ => none
  | a :: l, u => if a = u then none else chainPredGo a l u

/-- Index of the first occurrence of u in its chain (the chain position the
refinement loop walks backwards). -/
def chainPos : List Node → Node → Nat
  | [], _ => 0
  | a :: l, u => if a = u then 0 else chainPos l u + 1

theorem chainPos_cons (a u : Node) (l : List Node) :
    chainPos (a :: l) u = if a = u then 0 else chainPos l u + 1 := rfl

theorem chainPos_cons_le (a p : Node) (l : List Node) :
    chainPos (a :: l) p ≤ chainPos l p + 1 := by
  rw [chainPos_cons]
  by_cases hap : a = p
  · simp [hap]
  · simp [hap]

theorem chainPredGo_spec :
    ∀ (l : List Node) (prev u p : Node),
      chainPredGo prev l u = some p →
      u ∈ l ∧ (p = prev ∨ p ∈ l) ∧ (p = prev ∨ chainPos l p < chainPos l u)
  | [], _, _, _, h => by cases h
  | b :: l, prev, u, p, h => by
    unfold chainPredGo at h
    by_cases hbu : b = u
    · simp only [hbu, if_pos] at h
      cases h
      exact ⟨hbu ▸ List.mem_cons_self _ _, Or.inl rfl, Or.inl rfl⟩
    · simp only [hbu, if_neg, not_false_iff] at h
      rcases chainPredGo_spec l b u p h with ⟨hu, hpmem, hppos⟩
      have hposu : chainPos (b :: l) u = chainPos l u + 1 := by
        rw [chainPos_cons]
        simp [hbu]
      refine ⟨List.mem_cons_of_mem _ hu, ?_, ?_⟩
      · rcases hpmem with rfl | hp
        · exact Or.inr (List.mem_cons_self _ _)
        · exact Or.inr (List.mem_cons_of_mem _ hp)
      · refine Or.inr ?_
        rcases hppos with rfl | hplt
        · have hp0 : chainPos (p :: l) p = 0 := by
            rw [chainPos_cons]
            simp
          rw [hp0, hposu]
          exact Nat.succ_pos _
        · rw [hposu]
          exact lt_of_le_of_lt (chainPos_cons_le b p l) (Nat.succ_lt_succ hplt)

theorem chainPred_spec (l : List Node) (u p : Node) (h : chainPred l u = some p) :
    p ∈ l ∧ chainPos l p < chainPos l u := by
  cases l with
  | nil => cases h
  | cons a l =>
    unfold chainPred at h
    by_cases hau : a = u
    · simp only [hau, if_pos] at h
      cases h
    · simp only [hau, if_neg, not_false_iff] at h
      rcases chainPredGo_spec l a u p h with ⟨hu, hpmem, hppos⟩
      have hposu : chainPos (a :: l) u = chainPos l u + 1 := by
        rw [chainPos_cons]
        simp [hau]
      constructor
      · rcases hpmem with rfl | hp
        · exact List.mem_cons_self _ _
        · exact List.mem_cons_of_mem _ hp
      · rcases hppos with rfl | hplt
        · have hp0 : chainPos (p :: l) p = 0 := by
            rw [chainPos_cons]
            simp
          rw [hp0, hposu]
          exact Nat.succ_pos _
        · rw [hposu]
          exact lt_of_le_of_lt (chainPos_cons_le a p l) (Nat.succ_lt_succ hplt)

/-- The termination measure of the antichain refinement loop: the sum over
the current value set of one plus each chain position. -/
def acMeasure (chainOf : Node → List Node) (values : List Node) : Nat :=
  (values.map (fun u => chainPos (chainOf u) u + 1)).sum

theorem acMeasure_split (chainOf : Node → List Node) :
    ∀ values : List Node,
      (values.map (fun u => chainPos (chainOf u) u)).sum + values.length =
        acMeasure chainOf values
  | [] => by simp [acMeasure]
  | a :: l => by
    unfold acMeasure at *
    simp only [List.map_cons, List.sum_cons, List.length_cons]
    have := acMeasure_split chainOf l
    unfold acMeasure at this
    omega

/-- Embeds one body of the do-while refinement loop at the end of
`compute_maximal_antichain`.  The inner pair loop moves a value u into temp
as soon as some other index j exists: the descendant test guarding the
move is commented out in the source (the BSEARCH over u->dvg_desc), so
every value moves whenever at least two values are present.  Then every
moved value with a chain predecessor inserts that predecessor into the
value set.  Returns (new values, temp). -/
def acRefineBody (chainOf : Node → List Node) (values : List Node) :
    List Node × List Node :=
  if 2 ≤ values.length then
    (values.foldl
      (fun acc u =>
        match chainPred (chainOf u) u with
        | some p => addUnique acc p
        | none => acc) [],
     values)
  else (values, [])

/-- Embeds the do-while refinement loop; the loop exits when temp stays
empty.  Exhausted fuel (`none`) models a loop that has not terminated
within the bound; `antichain_refine_terminates` shows the measure plus one
is always enough. -/
def acRefineLoop (chainOf : Node → List Node) : Nat → List Node → Option (List Node)
  | 0, _ => none
  | fuel + 1, values =>
    if (acRefineBody chainOf values).2.isEmpty then some (acRefineBody chainOf values).1
    else acRefineLoop chainOf fuel (acRefineBody chainOf values).1

theorem acMeasure_addUnique_le (chainOf : Node → List Node) (acc : List Node)
    (p : Node) :
    acMeasure chainOf (addUnique acc p) ≤
      acMeasure chainOf acc + (chainPos (chainOf p) p + 1) := by
  unfold addUnique acMeasure
  by_cases hp : p ∈ acc
  · simp only [hp, if_pos]
    exact Nat.le_add_right _ _
  · simp [hp]

theorem predFold_measure_le (chainOf : Node → List Node) :
    ∀ (l : List Node) (acc : List Node),
      (∀ u ∈ l, ∀ p ∈ chainOf u, chainOf p = chainOf u) →
      acMeasure chainOf
        (l.foldl (fun acc2 u =>
          match chainPred (chainOf u) u with
          | some p => addUnique acc2 p
          | none => acc2) acc) ≤
      acMeasure chainOf acc + (l.map (fun u => chainPos (chainOf u) u)).sum
  | [], acc, _ => by simp
  | u :: l, acc, hcons => by
    rw [List.foldl_cons]
    simp only [List.map_cons, List.sum_cons]
    cases hpred : chainPred (chainOf u) u with
    | none =>
      dsimp only
      have ht := predFold_measure_le chainOf l acc
        (fun v hv => hcons v (List.mem_cons_of_mem _ hv))
      omega
    | some p =>
      dsimp only
      have hspec := chainPred_spec (chainOf u) u p hpred
      have hcp : chainOf p = chainOf u := hcons u (List.mem_cons_self _ _) p hspec.1
      have h1 := acMeasure_addUnique_le chainOf acc p
      rw [hcp] at h1
      have hlt := hspec.2
      have ht := predFold_measure_le chainOf l (addUnique acc p)
        (fun v hv => hcons v (List.mem_cons_of_mem _ hv))
      omega

theorem predFold_mem (chainOf : Node → List Node) :
    ∀ (l : List Node) (acc : List Node) (x : Node),
      x ∈ l.foldl (fun acc2 u =>
        match chainPred (chainOf u) u with
        | some p => addUnique acc2 p
        | none => acc2) acc →
      x ∈ acc ∨ ∃ u ∈ l, chainPred (chainOf u) u = some x
  | [], _, x, hx => Or.inl hx
  | u :: l, acc, x, hx => by
    rw [List.foldl_cons] at hx
    rcases predFold_mem chainOf l _ x hx with hx2 | ⟨v, hv, hpv⟩
    · cases hpred : chainPred (chainOf u) u with
      | none =>
        rw [hpred] at hx2
        exact Or.inl hx2
      | some p =>
        rw [hpred] at hx2
        rcases mem_addUnique.1 hx2 with hx3 | rfl
        · exact Or.inl hx3
        · exact Or.inr ⟨u, List.mem_cons_self _ _, hpred⟩
    · exact Or.inr ⟨v, List.mem_cons_of_mem _ hv, hpv⟩

theorem acRefineLoop_terminates_aux (chainOf : Node → List Node) :
    ∀ (m : Nat) (values : List Node),
      (∀ u ∈ values, ∀ p ∈ chainOf u, chainOf p = chainOf u) →
      acMeasure chainOf values ≤ m →
      ∃ res, acRefineLoop chainOf (m + 1) values = some res
  | 0, values, _, hm => by
    have hnil : values = [] := by
      cases values with
      | nil => rfl
      | cons a l =>
        exfalso
        unfold acMeasure at hm
        simp only [List.map_cons, List.sum_cons] at hm
        omega
    subst hnil
    exact ⟨[], rfl⟩
  | m + 1, values, hcons, hm => by
    unfold acRefineLoop
    by_cases hlen : 2 ≤ values.length
    · have hbody : acRefineBody chainOf values =
          (values.foldl
            (fun acc u =>
              match chainPred (chainOf u) u with
              | some p => addUnique acc p
              | none => acc) [],
           values) := by
        unfold acRefineBody
        simp [hlen]
      have htempne : ((acRefineBody chainOf values).2.isEmpty) = false := by
        rw [hbody]
        cases values with
        | nil => simp at hlen
        | cons a l => simp
      rw [htempne]
      simp only [Bool.false_eq_true, if_neg, not_false_iff]
      have hmeas : acMeasure chainOf (acRefineBody chainOf values).1 ≤ m := by
        rw [hbody]
        dsimp only
        have hle := predFold_measure_le chainOf values [] hcons
        have hsplit := acMeasure_split chainOf values
        have hM0 : acMeasure chainOf ([] : List Node) = 0 := rfl
        omega
      have hcons2 : ∀ u ∈ (acRefineBody chainOf values).1,
          ∀ p ∈ chainOf u, chainOf p = chainOf u := by
        rw [hbody]
        dsimp only
        intro x hx
        rcases predFold_mem chainOf values [] x hx with hx2 | ⟨v, hv, hpv⟩
        · cases hx2
        · have hspec := chainPred_spec (chainOf v) v x hpv
          have hcx : chainOf x = chainOf v := hcons v hv x hspec.1
          intro p hp
          rw [hcx] at hp ⊢
          exact hcons v hv p hp
      exact acRefineLoop_terminates_aux chainOf m (acRefineBody chainOf values).1
        hcons2 hmeas
    · have hbody : acRefineBody chainOf values = (values, []) := by
        unfold acRefineBody
        simp [hlen]
      rw [hbody]
      exact ⟨values, rfl⟩

/-- C10: the chain-predecessor refinement do-while loop terminates: every
value moved to temp is replaced only by its chain predecessor when one
exists, and predecessors sit strictly earlier in their finite chains, so
the sum of chain positions strictly decreases and the loop empties temp
after at most `acMeasure` many iterations. -/
theorem antichain_refine_terminates (chainOf : Node → List Node)
    (values : List Node)
    (hcons : ∀ u ∈ values, ∀ p ∈ chainOf u, chainOf p = chainOf u) :
    ∃ res, acRefineLoop chainOf (acMeasure chainOf values + 1) values = some res :=
  acRefineLoop_terminates_aux chainOf (acMeasure chainOf values) values hcons le_rfl

/-- Witness for `antichain_refine_terminates`: two values on one chain. -/
theorem antichain_refine_terminates_witness :
    (∀ u ∈ ([1, 2] : List Node), ∀ p ∈ (fun _ : Node => ([1, 2] : List Node)) u,
      (fun _ : Node => ([1, 2] : List Node)) p = (fun _ : Node => ([1, 2] : List Node)) u) ∧
    ∃ res, acRefineLoop (fun _ => [1, 2])
      (acMeasure (fun _ => [1, 2]) [1, 2] + 1) [1, 2] = some res :=
  ⟨by decide, antichain_refine_terminates (fun _ => [1, 2]) [1, 2] (by decide)⟩

theorem acRefineLoop_length_le_one (chainOf : Node → List Node) :
    ∀ (fuel : Nat) (values res : List Node),
      acRefineLoop chainOf fuel values = some res → res.length ≤ 1
  | 0, _, res, h => by cases h
  | fuel + 1, values, res, h => by
    unfold acRefineLoop at h
    by_cases hlen : 2 ≤ values.length
    · have hbody2 : (acRefineBody chainOf values).2 = values := by
        unfold acRefineBody
        simp [hlen]
      have htempne : ((acRefineBody chainOf values).2.isEmpty) = false := by
        rw [hbody2]
        cases values with
        | nil => simp at hlen
        | cons a l => simp
      rw [htempne] at h
      simp only [Bool.false_eq_true, if_neg, not_false_iff] at h
      exact acRefineLoop_length_le_one chainOf fuel _ res h
    · have hbody : acRefineBody chainOf values = (values, []) := by
        unfold acRefineBody
        simp [hlen]
      rw [hbody] at h
      simp only [List.isEmpty_nil, if_pos] at h
      cases h
      omega

/-- Embeds the reverse-assignment construction of
`compute_maximal_antichain`: scanning left indices i in ascending order,
record rev[assignment[i]] = i. -/
def buildRev (assignment : List (Option Nat)) (n : Nat) : Nat → Option Nat :=
  (List.range n).foldl
    (fun rev i =>
      match assignment.getD i none with
      | some j => fun j2 => if j2 = j then some i else rev j2
      | none => rev)
    (fun _ => none)

/-- Embeds the chain-following `while (assignment[source] >= 0)` loop:
follow the matching from a source index, appending the node of every
target index.  The C loop is unbounded; fuel n (the DVG node count)
covers every path of an injective matching. -/
def followChain (assignment : List (Option Nat)) (idxMap : List Node) :
    Nat → Nat → List Node
  | _, 0 => []
  | src, fuel + 1 =>
    match assignment.getD src none with
    | some tgt => idxMap.getD tgt 0 :: followChain assignment idxMap tgt fuel
    | none => []

/-- Embeds the minimal-chain-partition construction of
`compute_maximal_antichain`: every right index j that is no target of the
matching heads a new chain. -/
def buildChains (assignment : List (Option Nat)) (idxMap : List Node) (n : Nat) :
    List (List Node) :=
  (List.range n).foldl
    (fun cs j =>
      if buildRev assignment n j = none then
        cs ++ [idxMap.getD j 0 :: followChain assignment idxMap j n]
      else cs)
    []

/-- The chains of the DVG under a given matching assignment, with the dense
sorted index map of `compute_maximal_antichain`. -/
def antichainChains (dvg : Dvg) (assignment : List (Option Nat)) : List (List Node) :=
  buildChains assignment (sortedArray dvg.nodes) dvg.nodes.length

/-- The seed of the refinement loop: the head node of every chain, inserted
as each chain is discovered. -/
def antichainSeed (dvg : Dvg) (assignment : List (Option Nat)) : List Node :=
  (antichainChains dvg assignment).map (fun c => c.headD 0)

/-- The chain field of a node (`rss_irn->chain`): the first constructed
chain containing it; chains of an injective matching are disjoint. -/
def chainOfFun (chains : List (List Node)) (u : Node) : List Node :=
  (chains.find? (fun c => c.contains u)).getD []

/-- Embeds `compute_maximal_antichain`: NULL when the DVG has no edges;
otherwise build the dense sorted index map, derive the minimal chain
partition from the maximum-cardinality matching assignment (modelled from
the spec: hungarian_solve lives in the external hungarian library, so its
assignment is a parameter here), and run the chain-predecessor refinement
loop.  The C do-while is unbounded; the fuel `acMeasure + 1` is proved
sufficient by the termination theorem for the refinement loop. -/
def compute_maximal_antichain (dvg : Dvg) (assignment : List (Option Nat)) :
    Option (List Node) :=
  if dvg.edges.isEmpty then none
  else
    acRefineLoop (chainOfFun (antichainChains dvg assignment))
      (acMeasure (chainOfFun (antichainChains dvg assignment))
        (antichainSeed dvg assignment) + 1)
      (antichainSeed dvg assignment)

theorem compute_maximal_antichain_length_le_one (dvg : Dvg)
    (assignment : List (Option Nat)) (res : List Node)
    (h : compute_maximal_antichain dvg assignment = some res) :
    res.length ≤ 1 := by
  unfold compute_maximal_antichain at h
  by_cases he : dvg.edges.isEmpty
  · rw [if_pos he] at h
    cases h
  · rw [if_neg he] at h
    exact acRefineLoop_length_le_one _ _ _ res h

/-- Modelled from the spec: one expansion step of DVG reachability, used
only to state what a maximum antichain of the DVG would be. -/
def reachExpand (edges : List (Node × Node)) (s : List Node) : List Node :=
  edges.foldl (fun acc e => if e.1 ∈ acc then addUnique acc e.2 else acc) s

/-- Modelled from the spec: the DVG descendants of a node (everything
reachable through at least one DVG edge), by bounded expansion. -/
def specDvgDescendants (edges : List (Node × Node)) (fuel : Nat) (a : Node) :
    List Node :=
  (reachExpand edges)^[fuel]
    (edges.foldl (fun acc e => if e.1 = a then addUnique acc e.2 else acc) [])

/-- C1 evaluated at a failing input: with Sink = 0 (killed by itself) and
two values 1, 2 killed directly by Sink, the DVG has edges
(0,0), (1,0), (2,0); under the maximum matching pairing index 0 with 0,
the chains are [1] and [2] and the refinement loop returns the empty set,
although 1 and 2 are DVG-incomparable DVG nodes: the returned set is not a
maximum antichain (the antichain \x7b1, 2\x7d is larger), and value 1 was moved
out of the candidate set although no other candidate is a DVG descendant
of it — the guarding descendant test is commented out in the source. -/
theorem antichain_not_maximum :
    compute_maximal_antichain
        { nodes := [0, 1, 2], edges := [(0, 0), (1, 0), (2, 0)] }
        [some 0, none, none] = some [] ∧
    (1 : Node) ∈ ({ nodes := [0, 1, 2], edges := [(0, 0), (1, 0), (2, 0)] } : Dvg).nodes ∧
    (2 : Node) ∈ ({ nodes := [0, 1, 2], edges := [(0, 0), (1, 0), (2, 0)] } : Dvg).nodes ∧
    ((2 : Node) ∈ specDvgDescendants [(0, 0), (1, 0), (2, 0)] 3 1 → False) ∧
    ((1 : Node) ∈ specDvgDescendants [(0, 0), (1, 0), (2, 0)] 3 2 → False) := by
  decide

/-- Embeds `build_dvg_pkiller_list` for one node: a DVG user at position
el becomes a pkiller as soon as some other user position el2 exists whose
DVG descendant array does not contain it (the source comment asks for all
other users, but the loop inserts on the first witnessing pair).  In the
current pipeline the dvg_desc arrays are never built (their construction
is disabled in the source), which `descOf = none` models: dereferencing
one is a crash (`none` result).  The dereference hides behind the
position-inequality test, so nodes with at most one user never reach
it. -/
def buildDvgPkillerList (users : List Node)
    (descOf : Node → Option (List Node)) : Option (List Node) :=
  (List.range users.length).foldl
    (fun oacc i => oacc.bind (fun acc =>
      (List.range users.length).foldl
        (fun oacc2 j => oacc2.bind (fun acc2 =>
          if i = j then some acc2
          else
            match descOf (users.getD j 0) with
            | none => none
            | some dl =>
              if ¬ (sortedArray dl).contains (users.getD i 0) ∧
                  ¬ acc2.contains (users.getD i 0) then
                some (acc2 ++ [users.getD i 0])
              else some acc2))
        (some acc)))
    (some [])

theorem buildDvgPkillerList_nil (descOf : Node → Option (List Node)) :
    buildDvgPkillerList [] descOf = some [] := rfl

theorem buildDvgPkillerList_single (u : Node) (descOf : Node → Option (List Node)) :
    buildDvgPkillerList [u] descOf = some [] := rfl

/-- Embeds the per-node loop of `build_dvg_pkiller_list` over all DVG
nodes, producing the dvg_pkiller list of every node (crash propagates). -/
def buildAllDvgPkillers (nodes : List Node) (dvgUser : Node → List Node)
    (descOf : Node → Option (List Node)) : Option (Node → List Node) :=
  nodes.foldl
    (fun oacc nd => oacc.bind (fun f =>
      (buildDvgPkillerList (dvgUser nd) descOf).map
        (fun pl => fun n => if n = nd then pl else f n)))
    (some (fun _ => []))

/-- Embeds the `add_edge` determination of
`compute_best_admissible_serialization`: when v lies in the dvg_pkiller
array of u the code compares the position k in that array with the
position j of v in the saturation-value array; otherwise it asks the
height analysis for the absence of a path from v to vv. -/
def addEdgeCond (isPk : Bool) (k j : Nat) (reach : Node → Node → Bool)
    (v vv : Node) : Bool :=
  if isPk then decide (k ≠ j) else !(reach v vv)

/-- The candidate edges (u, v, vv) examined by the loops of
`compute_best_admissible_serialization` (lines guarded by `add_edge`),
given the dvg_pkiller lists and the height reachability oracle: u and v
range over ordered pairs of distinct positions of the saturation-value
array, vv over the dvg_pkiller array of u in descending position order,
skipping Sink. -/
def consideredTriples (dvgPkList : Node → List Node)
    (reach : Node → Node → Bool) (sink : Node) (valArr : List Node) :
    List (Node × Node × Node) :=
  (List.range valArr.length).flatMap (fun i =>
    (List.range valArr.length).flatMap (fun j =>
      if i = j then []
      else
        ((List.range (sortedArray (dvgPkList (valArr.getD i 0))).length).reverse).filterMap
          (fun k =>
            if (sortedArray (dvgPkList (valArr.getD i 0))).getD k 0 = sink then none
            else if addEdgeCond
                ((sortedArray (dvgPkList (valArr.getD i 0))).contains (valArr.getD j 0))
                k j reach (valArr.getD j 0)
                ((sortedArray (dvgPkList (valArr.getD i 0))).getD k 0) then
              some (valArr.getD i 0, valArr.getD j 0,
                (sortedArray (dvgPkList (valArr.getD i 0))).getD k 0)
            else none)))

/-- Concrete dvg_pkiller lists for the `add_edge` counterexample: value 1
has the single pkiller 4, value 2 has pkillers 3 and 4. -/
def pkListW : Node → List Node := fun n =>
  if n = 1 then [4] else if n = 2 then [3, 4] else []

/-- Concrete height-reachability oracle: no paths at all. -/
def reachW : Node → Node → Bool := fun _ _ => false

/-- C3 evaluated at a failing input: with saturation values ordered
[4, 1, 2, 3] and v = 4 in dvg_pkillers(u) for u = 2 (pkiller array
[3, 4]), the code considers the candidate (vv = 4 → v = 4) — vv equal to
v, which the claim excludes — because its test compares the position k of
vv in the pkiller array with the position j of v in the value array; and
it skips (vv = 3 → v = 4) — which the claim requires — because there
k = j = 0 by coincidence of the two unrelated index spaces. -/
theorem add_edge_index_mismatch :
    ((2 : Node), (4 : Node), (4 : Node)) ∈
        consideredTriples pkListW reachW 0 [4, 1, 2, 3] ∧
    (((2 : Node), (4 : Node), (3 : Node)) ∈
        consideredTriples pkListW reachW 0 [4, 1, 2, 3] → False) ∧
    (4 : Node) ∈ sortedArray (pkListW 2) ∧
    (3 : Node) ∈ sortedArray (pkListW 2) ∧ (3 : Node) ≠ (4 : Node) := by
  decide

/-- Unsigned 32-bit truncation, for the unsigned arithmetic of the cost
terms in `compute_best_admissible_serialization`. -/
def u32 (a : Nat) : Nat := a % 4294967296

/-- Unsigned 32-bit subtraction (wrapping), as in `mu1 - mu2` and
`num_regs - omega1` on `unsigned` operands. -/
def u32sub (a b : Nat) : Nat := (u32 a + 4294967296 - u32 b) % 4294967296

/-- Cardinality of the intersection of two bitsets represented as node
lists (`bitset_popcnt(bitset_and(..))`). -/
def interCard (l1 l2 : List Node) : Nat :=
  (l1.dedup.filter (fun x => x ∈ l2)).length

/-- Cardinality of the difference of two bitsets
(`bitset_popcnt(bitset_andnot(..))`). -/
def diffCard (l1 l2 : List Node) : Nat :=
  (l1.dedup.filter (fun x => x ∉ l2)).length

/-- Embeds the accumulation of all descendants of all dvg_pkillers of u
(bitset bs_ukilldesc): every non-Sink pkiller contributes itself and the
non-Sink entries of its dvg_desc array; that array is never built in the
current pipeline, so reading it is a crash (`none`). -/
def accumUkilldesc (pkList : List Node) (descOf : Node → Option (List Node))
    (sink : Node) : Option (List Node) :=
  pkList.foldl
    (fun oacc irn => oacc.bind (fun acc =>
      if irn = sink then some acc
      else
        match descOf irn with
        | none => none
        | some dl =>
          some ((dl.filter (fun d => ¬ d = sink)).foldl addUnique
            (addUnique acc irn))))
    (some [])

/-- The running best-candidate state of
`compute_best_admissible_serialization`: best benefit, best omega2, best
benefit among omega2 = 0 candidates (all unsigned, starting at UINT_MAX),
the has-positive-omega1 flag, and the two tracked edges (None while the C
structs are still uninitialized). -/
structure BestState where
  bestBenefit : Nat
  bestOmega2 : Nat
  bestBenefitOmega20 : Nat
  hasPositive : Bool
  minBenefitEdge : Option (Node × Node)
  minOmega20Edge : Option (Node × Node)
deriving DecidableEq

/-- The chosen serialization (`struct _serialization` content). -/
structure SerResult where
  src : Node
  tgt : Node
  omega1 : Nat
  omega2 : Nat
deriving DecidableEq

/-- Embeds the cost computation and best-candidate tracking for one
admissible candidate edge (vv → v): omega1 = mu1 - mu2 (unsigned; the
source asserts mu1 >= mu2), the critical-path term, omega2, and the three
updates guarded by strict unsigned comparisons. -/
def serUpdate (numRegs : Nat) (st : BestState) (vv v : Node)
    (mu1 mu2 vh vvh maxH : Nat) : BestState :=
  let omega1 := u32sub mu1 mu2
  let critical := u32 (u32sub (u32 (vh + maxH)) vvh + 1)
  let omega2 := if u32 maxH < critical then critical - u32 maxH else 0
  let benefit := u32sub numRegs omega1
  let st1 := if benefit < st.bestBenefit then
      { st with minBenefitEdge := some (vv, v), bestBenefit := benefit }
    else st
  let st2 := if omega2 = 0 ∧ benefit < st1.bestBenefitOmega20 then
      { st1 with minOmega20Edge := some (vv, v), bestBenefitOmega20 := benefit }
    else st1
  { st2 with bestOmega2 := min st2.bestOmega2 omega2
             hasPositive := st2.hasPositive || decide (0 < omega1) }

/-- Embeds `compute_best_admissible_serialization`.  Outer `none` is a
crash: in the current pipeline the dvg_desc arrays were never built, so
whenever the pair loop runs (two or more saturation values) the
`ARR_LEN(v->dvg_desc)` read faults; likewise inside the accumulated
pkiller-descendant set.  `some none` is the NULL return taken when no
candidate had omega1 > 0 (and also stands for the content of a tracked
edge struct that was never written, which the C code would copy
uninitialized). -/
def compute_best_admissible_serialization (satVals : List Node)
    (dvgPkList : Node → List Node) (descOf : Node → Option (List Node))
    (height : Node → Nat) (maxHeight : Nat) (reach : Node → Node → Bool)
    (sink : Node) (numRegs : Nat) : Option (Option SerResult) :=
  ((List.range satVals.length).foldl
    (fun ost i => ost.bind (fun st =>
      match accumUkilldesc (dvgPkList (satVals.getD i 0)) descOf sink with
      | none => none
      | some ukd =>
        (List.range satVals.length).foldl
          (fun ost2 j => ost2.bind (fun st2 =>
            if i = j then some st2
            else
              match descOf (satVals.getD j 0) with
              | none => none
              | some vdl =>
                some ((((List.range
                    (sortedArray (dvgPkList (satVals.getD i 0))).length).reverse).foldl
                  (fun st3 k =>
                    if (sortedArray (dvgPkList (satVals.getD i 0))).getD k 0 = sink
                    then st3
                    else if addEdgeCond
                        ((sortedArray (dvgPkList (satVals.getD i 0))).contains
                          (satVals.getD j 0))
                        k j reach (satVals.getD j 0)
                        ((sortedArray (dvgPkList (satVals.getD i 0))).getD k 0) then
                      serUpdate numRegs st3
                        ((sortedArray (dvgPkList (satVals.getD i 0))).getD k 0)
                        (satVals.getD j 0)
                        (interCard (vdl.filter (fun d => ¬ d = sink)) satVals)
                        (if (sortedArray (dvgPkList (satVals.getD i 0))).contains
                            (satVals.getD j 0)
                         then diffCard ukd (vdl.filter (fun d => ¬ d = sink))
                         else 0)
                        (height (satVals.getD j 0))
                        (height ((sortedArray (dvgPkList (satVals.getD i 0))).getD k 0))
                        maxHeight
                    else st3) st2))))
          (some st)))
    (some { bestBenefit := 4294967295, bestOmega2 := 4294967295,
            bestBenefitOmega20 := 4294967295, hasPositive := false,
            minBenefitEdge := none, minOmega20Edge := none })).map
    (fun st =>
      if st.hasPositive = false then none
      else if st.bestOmega2 = 0 then
        st.minOmega20Edge.map (fun e =>
          { src := e.1, tgt := e.2, omega1 := st.bestBenefitOmega20,
            omega2 := st.bestOmega2 })
      else
        st.minBenefitEdge.map (fun e =>
          { src := e.1, tgt := e.2, omega1 := st.bestBenefit,
            omega2 := st.bestOmega2 }))

theorem compute_best_nil (dvgPkList : Node → List Node)
    (descOf : Node → Option (List Node)) (height : Node → Nat) (maxHeight : Nat)
    (reach : Node → Node → Bool) (sink : Node) (numRegs : Nat) :
    compute_best_admissible_serialization [] dvgPkList descOf height maxHeight
      reach sink numRegs = some none := rfl

theorem compute_best_single (u : Node) (dvgPkList : Node → List Node)
    (descOf : Node → Option (List Node)) (height : Node → Nat) (maxHeight : Nat)
    (reach : Node → Node → Bool) (sink : Node) (numRegs : Nat) :
    compute_best_admissible_serialization [u] dvgPkList descOf height maxHeight
        reach sink numRegs = none ∨
      compute_best_admissible_serialization [u] dvgPkList descOf height maxHeight
        reach sink numRegs = some none := by
  unfold compute_best_admissible_serialization
  simp only [List.length_cons, List.length_nil, List.range_succ, List.range_zero,
    List.nil_append, List.foldl_cons, List.foldl_nil, Option.some_bind,
    List.getD_cons_zero]
  cases hres : accumUkilldesc (dvgPkList u) descOf sink with
  | none => left; rfl
  | some ukd => right; rfl

/-- Embeds the register-budget computation of
`perform_value_serialization_heuristic`: the popcount of the non-ignore
bitset after clearing the ABI-reserved bits
(`bitset_andnot(arch_nonign_bs, abi_ign_bs)`). -/
def availableRegs (nonign abiign : List Bool) : Nat :=
  ((List.zipWith (fun x y => x && !y) nonign abiign).filter (fun b => b)).length

/-- Popcount of a register bitset. -/
def popcnt (l : List Bool) : Nat := (l.filter (fun b => b)).length

/-- C9 (amended): for every pair of same-width bitsets, the register budget
equals the size of the non-ignore set minus the size of its intersection
with the ABI-reserved set (the set difference), not minus the full size of
the ABI-reserved set. -/
theorem available_regs_formula :
    ∀ (a b : List Bool), a.length = b.length →
      availableRegs a b + popcnt (List.zipWith (fun x y => x && y) a b) = popcnt a
  | [], [], _ => rfl
  | [], _ :: _, h => by cases h
  | _ :: _, [], h => by cases h
  | x :: a, y :: b, h => by
    have ih := available_regs_formula a b (by simpa using h)
    unfold availableRegs popcnt at *
    cases x <;> cases y <;> simp_all <;> omega

/-- Witness for `available_regs_formula` on concrete four-register
bitsets. -/
theorem available_regs_formula_witness :
    ([true, true, false, true] : List Bool).length =
        ([false, true, true, false] : List Bool).length ∧
    availableRegs [true, true, false, true] [false, true, true, false] +
        popcnt (List.zipWith (fun x y => x && y)
          [true, true, false, true] [false, true, true, false]) =
      popcnt [true, true, false, true] :=
  ⟨by decide, available_regs_formula [true, true, false, true]
    [false, true, true, false] (by decide)⟩

/-- Counterexample for C9: with non-ignore = \x7br0\x7d and ABI-reserved = \x7br1\x7d
the code computes a budget of 1 register, but the claimed formula
|non-ignore| - |ABI-reserved| yields 0. -/
theorem available_regs_not_difference :
    ¬ (availableRegs [true, false] [false, true] =
        popcnt [true, false] - popcnt [false, true]) := by
  decide

/-- The per-(block, register class) inputs of the pass: the interesting
node list (Sink first, then the candidates of the class), the collected
consumer/descendant data, the two register bitsets, the external
height analysis (heights, block maximum, in-block reachability), the
external maximum-cardinality matching solver (modelled from the spec:
hungarian_solve lives in the external hungarian library and is queried on
the current DVG edge set), and the fuel bounding the unbounded C loops. -/
structure ClassInput where
  sink : Node
  nodes : List Node
  info : Node → NodeInfo
  nonign : List Bool
  abiign : List Bool
  matching : List (Node × Node) → List (Option Nat)
  height : Node → Nat
  maxHeight : Nat
  reach : Node → Node → Bool
  fuel : Nat

/-- Embeds the `while (sat_vals && ...)` serialization loop of
`perform_value_serialization_heuristic`: recompute the maximal antichain,
stop cleanly when it is NULL or not larger than the register budget;
otherwise run the best-admissible-serialization search.  A NULL (or
crashing) search result makes the C caller dereference
`ser->edge->tgt` on a NULL `ser`, modelled as `none`; a found
serialization is recorded in the DVG, in the target dvg_user list and as
an inserted dependency edge, and the loop repeats.  (The C code recomputes
the block heights after each insertion through the external height
module; the model keeps the supplied height oracle.) -/
def serLoop (ci : ClassInput) (regs : Nat) :
    Nat → Dvg → (Node → List Node) → Option (List (Node × Node))
  | 0, _, _ => none
  | fuel + 1, dvg, dvgUser =>
    match compute_maximal_antichain dvg (ci.matching dvg.edges) with
    | none => some []
    | some vals =>
      if regs < vals.length then
        match buildAllDvgPkillers dvg.nodes dvgUser (fun _ => none) with
        | none => none
        | some dvgPk =>
          match compute_best_admissible_serialization vals dvgPk (fun _ => none)
              ci.height ci.maxHeight ci.reach ci.sink regs with
          | none => none
          | some none => none
          | some (some ser) =>
            (serLoop ci regs fuel
              { dvg with edges := addUnique dvg.edges (ser.src, ser.tgt) }
              (fun n => if n = ser.tgt then dvgUser ser.tgt ++ [ser.src]
                        else dvgUser n)).map
              (fun es => (ser.src, ser.tgt) :: es)
      else some []

/-- Embeds `perform_value_serialization_heuristic`: compute the register
budget and the DVG, then run the serialization loop; returns the list of
inserted dependency edges, or `none` when the pass does not terminate
cleanly. -/
def perform_value_serialization_heuristic (ci : ClassInput)
    (killer : Node → Option Node) : Option (List (Node × Node)) :=
  match compute_dvg killer ci.nodes (ci.nodes.length + 2) with
  | none => none
  | some dvg =>
    serLoop ci (availableRegs ci.nonign ci.abiign) (ci.fuel + 1) dvg (fun _ => [])

/-- Embeds the per-register-class part of `process_block`: potential-killer
analysis and killing function (`compute_killing_function`, which runs
`compute_pkill_set` and the bipartite decomposition), then the value
serialization heuristic. -/
def processClass (ci : ClassInput) : Option (List (Node × Node)) :=
  match compute_killing_function ci.info ci.sink ci.nodes ci.fuel with
  | none => none
  | some kf => perform_value_serialization_heuristic ci kf.killer

/-- The whole-graph input of `rss_schedule_preparation`: the per-block,
per-register-class analyses visited by the block walk (flattened in walk
order) and the dependency edges already present in the graph.  Dependency
edges are not data out-edges, so they do not feed the consumer and
descendant collection of a later run. -/
structure RssGraph where
  classes : List ClassInput
  deps : List (Node × Node)

/-- Install the dependency edges inserted by a run (`add_irn_dep`). -/
def applyDeps (g : RssGraph) (es : List (Node × Node)) : RssGraph :=
  { g with deps := g.deps ++ es }

/-- Embeds `rss_schedule_preparation`: run every (block, class) analysis in
walk order, accumulating the inserted dependency edges; `none` when some
analysis does not terminate cleanly. -/
def rss_schedule_preparation (g : RssGraph) : Option (List (Node × Node)) :=
  g.classes.foldl
    (fun acc ci => acc.bind (fun es => (processClass ci).map (fun es2 => es ++ es2)))
    (some [])

theorem serLoop_insertions_nil (ci : ClassInput) (regs : Nat) :
    ∀ (fuel : Nat) (dvg : Dvg) (dvgUser : Node → List Node)
      (es : List (Node × Node)),
      serLoop ci regs fuel dvg dvgUser = some es → es = []
  | 0, _, _, _, h => by cases h
  | fuel + 1, dvg, dvgUser, es, h => by
    unfold serLoop at h
    cases hac : compute_maximal_antichain dvg (ci.matching dvg.edges) with
    | none =>
      rw [hac] at h
      cases h
      rfl
    | some vals =>
      rw [hac] at h
      dsimp only at h
      by_cases hlen : regs < vals.length
      · rw [if_pos hlen] at h
        cases hpk : buildAllDvgPkillers dvg.nodes dvgUser (fun _ => none) with
        | none =>
          rw [hpk] at h
          dsimp only at h
          cases h
        | some dvgPk =>
          rw [hpk] at h
          dsimp only at h
          have hle1 := compute_maximal_antichain_length_le_one dvg
            (ci.matching dvg.edges) vals hac
          cases vals with
          | nil => simp at hlen
          | cons u tail =>
            cases tail with
            | nil =>
              rcases compute_best_single u dvgPk (fun _ => none) ci.height
                  ci.maxHeight ci.reach ci.sink regs with hcb | hcb
              · rw [hcb] at h
                cases h
              · rw [hcb] at h
                dsimp only at h
                cases h
            | cons b tail2 => simp at hle1
      · rw [if_neg hlen] at h
        cases h
        rfl

theorem processClass_insertions_nil (ci : ClassInput) (es : List (Node × Node))
    (h : processClass ci = some es) : es = [] := by
  unfold processClass at h
  cases hkf : compute_killing_function ci.info ci.sink ci.nodes ci.fuel with
  | none =>
    rw [hkf] at h
    cases h
  | some kf =>
    rw [hkf] at h
    dsimp only at h
    unfold perform_value_serialization_heuristic at h
    cases hdvg : compute_dvg kf.killer ci.nodes (ci.nodes.length + 2) with
    | none =>
      rw [hdvg] at h
      cases h
    | some dvg =>
      rw [hdvg] at h
      dsimp only at h
      exact serLoop_insertions_nil ci _ _ _ _ es h

theorem rssFold_insertions_nil :
    ∀ (cis : List ClassInput) (acc : Option (List (Node × Node))),
      (∀ es0, acc = some es0 → es0 = []) →
      ∀ es, cis.foldl
          (fun acc ci => acc.bind
            (fun es => (processClass ci).map (fun es2 => es ++ es2))) acc
          = some es → es = []
  | [], _, hacc, es, h => hacc es h
  | ci :: cis, acc, hacc, es, h => by
    rw [List.foldl_cons] at h
    refine rssFold_insertions_nil cis _ ?_ es h
    intro es0 h0
    cases acc with
    | none => cases h0
    | some es1 =>
      simp only [Option.some_bind] at h0
      cases hpc : processClass ci with
      | none =>
        rw [hpc] at h0
        cases h0
      | some es2 =>
        rw [hpc] at h0
        dsimp only [Option.map] at h0
        cases h0
        rw [hacc es1 rfl, processClass_insertions_nil ci es2 hpc]
        rfl

/-- C8: the pass is idempotent: a cleanly terminating run of
`rss_schedule_preparation` inserts no dependency edges at all (the
refinement loop of `compute_maximal_antichain` never returns more than one
value, so the serialization loop either exits at once or aborts on the
NULL result of the candidate search), hence the graph is unchanged and a
second run computes exactly the same result as the first. -/
theorem rss_schedule_preparation_idempotent (g : RssGraph)
    (es : List (Node × Node)) (h : rss_schedule_preparation g = some es) :
    es = [] ∧
      rss_schedule_preparation (applyDeps g es) = rss_schedule_preparation g := by
  have hes : es = [] := by
    unfold rss_schedule_preparation at h
    refine rssFold_insertions_nil g.classes _ ?_ es h
    intro es0 h0
    cases h0
    rfl
  subst hes
  refine ⟨rfl, ?_⟩
  unfold applyDeps rss_schedule_preparation
  rfl

/-- Concrete node-info table for the driver witnesses: value 1 is live-out,
consumed only by Sink = 0. -/
def infoD : Node → NodeInfo := fun n =>
  if n = 1 then { consumerList := [0], descendantList := [0] }
  else { consumerList := [], descendantList := [] }

/-- A concrete (block, class) input with one candidate value and a
one-register budget; the pass terminates cleanly without insertions. -/
def ciClean : ClassInput :=
  { sink := 0, nodes := [0, 1], info := infoD, nonign := [true],
    abiign := [false], matching := fun _ => [none, some 0],
    height := fun _ => 0, maxHeight := 0, reach := fun _ _ => false, fuel := 3 }

/-- Witness for `rss_schedule_preparation_idempotent` on a one-class graph
that terminates cleanly. -/
theorem rss_schedule_preparation_idempotent_witness :
    rss_schedule_preparation { classes := [ciClean], deps := [] } = some [] ∧
    (([] : List (Node × Node)) = [] ∧
      rss_schedule_preparation (applyDeps { classes := [ciClean], deps := [] } []) =
        rss_schedule_preparation { classes := [ciClean], deps := [] }) := by
  have h : rss_schedule_preparation { classes := [ciClean], deps := [] } = some [] := by
    rfl
  exact ⟨h, rss_schedule_preparation_idempotent { classes := [ciClean], deps := [] } [] h⟩

/-- The same (block, class) input with an empty register budget: the
saturation count 1 exceeds 0 registers. -/
def ciZeroRegs : ClassInput :=
  { sink := 0, nodes := [0, 1], info := infoD, nonign := [],
    abiign := [], matching := fun _ => [none, some 0],
    height := fun _ => 0, maxHeight := 0, reach := fun _ _ => false, fuel := 3 }

/-- C2 evaluated at a failing input: with one saturation value and a zero
register budget the serialization loop runs, the candidate search
evaluates no ordered pair (so it never observes omega1 > 0) and returns
NULL — and the caller dereferences `ser->edge->tgt` on that NULL pointer
instead of terminating cleanly: the (block, class) analysis has no clean
result. -/
theorem serialization_null_deref :
    compute_best_admissible_serialization [1] (fun _ => []) (fun _ => none)
        (fun _ => 0) 0 (fun _ _ => false) 0 0 = some none ∧
    processClass ciZeroRegs = none := by
  constructor
  · rfl
  · rfl

end Rss
